import Mathlib

/-!
Verification of the supertunnel SSH-tunnel supervisor: a shallow embedding of
the forwarding-port parser (`supertunnel/port.py`), the declarative SSH
configuration model (`supertunnel/ssh/config.py`, `supertunnel/ssh/helpers.py`)
and the continuous-SSH supervisor helpers (`supertunnel/ssh/continuous.py`),
together with proofs about them.

Python lists are mutable heap objects; they are modelled by an explicit heap
of cells addressed by natural numbers.  Python dicts are modelled by
association lists with first-match lookup and in-place replacement.  Machine
integers are `Int` (Python integers are unbounded).  Code that raises is
modelled with `Except`/`Option`.
-/

namespace SuperTunnel

/-! ## Python string and integer primitives

Models of the Python builtins used by `port.py`: `str.strip`, `str.split`
with a separator and a maxsplit, and `int(...)` applied to a string
(ASCII whitespace, an optional sign, decimal digits with single underscores
between digits). -/

/-- ASCII whitespace, as stripped by `str.strip()` and `int()`. -/
def pySpace (c : Char) : Bool :=
  c = ' ' || c = '\t' || c = '\n' || c = '\r' || c = '\x0b' || c = '\x0c'

/-- ASCII decimal digit. -/
def pyDigit (c : Char) : Bool :=
  '0' ≤ c && c ≤ '9'

/-- Python `str.strip()` on a character list (ASCII whitespace). -/
def trimChars (cs : List Char) : List Char :=
  ((cs.dropWhile pySpace).reverse.dropWhile pySpace).reverse

/-- Numeric value of a digit character. -/
def digitVal (c : Char) : Nat := c.toNat - 48

/-- The digit character for a value below ten. -/
def digitChar (d : Nat) : Char :=
  (['0', '1', '2', '3', '4', '5', '6', '7', '8', '9'].getD d '0')

/-- Body of a Python decimal literal: digits with single underscores strictly
between digits (CPython's grammar `digit (("_")? digit)*`). -/
def pyNumBody (cs : List Char) : Bool :=
  decide (cs ≠ []) && cs.all (fun c => pyDigit c || c = '_') &&
    decide (cs.head? ≠ some '_') && decide (cs.getLast? ≠ some '_') &&
    ! decide (['_', '_'] <:+: cs)

/-- Fold a digit list to its value. -/
def valFold (cs : List Char) : Nat :=
  cs.foldl (fun a c => 10 * a + digitVal c) 0

/-- Python `int(...)` on a signless body (after sign removal). -/
def pyNat? (cs : List Char) : Option Nat :=
  if pyNumBody cs then some (valFold (cs.filter (fun c => c ≠ '_'))) else none

/-- Python `int(...)` on already-stripped characters: optional sign, then the
numeric body. -/
def pyIntChars? (cs : List Char) : Option Int :=
  match cs with
  | [] => none
  | c :: rest =>
    if c = '+' then (pyNat? rest).map (fun n => (n : Int))
    else if c = '-' then (pyNat? rest).map (fun n => -(n : Int))
    else (pyNat? (c :: rest)).map (fun n => (n : Int))

/-- Python `int(...)` on a character list (strips surrounding whitespace, as
the builtin does). -/
def pyIntOf (cs : List Char) : Option Int :=
  pyIntChars? (trimChars cs)

/-- Decimal rendering of a positive natural, most significant digit first;
fuel-based so the kernel can evaluate it. -/
def natCharsAux : Nat → Nat → List Char
  | 0, _ => []
  | fuel + 1, n => if n = 0 then [] else natCharsAux fuel (n / 10) ++ [digitChar (n % 10)]

/-- Decimal rendering of a natural number, as Python's format `d`. -/
def natChars (n : Nat) : List Char :=
  if n = 0 then ['0'] else natCharsAux (n + 1) n

/-- Decimal rendering of an integer, as Python's format `d`. -/
def intChars (n : Int) : List Char :=
  if n < 0 then '-' :: natChars n.natAbs else natChars n.toNat

/-- Python `value.split(sep, lim)`: split on at most `lim` occurrences of the
separator, the remainder staying in the last field. -/
def splitLim (sep : Char) : Nat → List Char → List (List Char)
  | 0, cs => [cs]
  | lim + 1, cs =>
    if sep ∈ cs then
      cs.takeWhile (fun c => c ≠ sep) ::
        splitLim sep lim ((cs.dropWhile (fun c => c ≠ sep)).tail)
    else [cs]

/-! ## ForwardingPort (`supertunnel/port.py`) -/

/-- `ForwardingPort`, the frozen dataclass of `port.py`: a source port, a
destination port, an optional source host and a destination host defaulting
to `"localhost"`. -/
structure ForwardingPort where
  sourceport : Int
  destinationport : Int
  sourcehost : Option String := none
  destinationhost : String := "localhost"
deriving DecidableEq

/-- The `source` property: `HOST:PORT` when a truthy source host is set,
otherwise just the port. -/
def ForwardingPort.sourceChars (p : ForwardingPort) : List Char :=
  match p.sourcehost with
  | some h => if h = "" then intChars p.sourceport else h.toList ++ ':' :: intChars p.sourceport
  | none => intChars p.sourceport

/-- The `destination` property: `HOST:PORT`. -/
def ForwardingPort.destinationChars (p : ForwardingPort) : List Char :=
  p.destinationhost.toList ++ ':' :: intChars p.destinationport

/-- `ForwardingPort.__str__`: `source ++ ":" ++ destination`, as characters. -/
def ForwardingPort.renderChars (p : ForwardingPort) : List Char :=
  p.sourceChars ++ ':' :: p.destinationChars

/-- `ForwardingPort.__str__` as a string. -/
def ForwardingPort.toDisplay (p : ForwardingPort) : String :=
  String.mk p.renderChars

/-- The argument of `ForwardingPort.parse`: a Python int, a 2-tuple of ints,
an already-constructed rule, or a string. -/
inductive PortSpec where
  | num (n : Int)
  | pair (a b : Int)
  | rule (p : ForwardingPort)
  | str (s : String)
deriving DecidableEq

/-- String branch of `ForwardingPort.parse`.  A raised `ValueError` is the
`Except.error` case, carrying the literal that the failing `int(...)` call
received (for the comma branch the code strips before converting). -/
def parseChars (cs : List Char) : Except (List Char) ForwardingPort :=
  if ',' ∈ cs then
    match pyIntChars? (trimChars (cs.takeWhile (fun c => c ≠ ','))) with
    | none => .error (trimChars (cs.takeWhile (fun c => c ≠ ',')))
    | some a =>
      match pyIntChars? (trimChars ((cs.dropWhile (fun c => c ≠ ',')).tail)) with
      | none => .error (trimChars ((cs.dropWhile (fun c => c ≠ ',')).tail))
      | some b => .ok { sourceport := a, destinationport := b }
  else if ':' ∈ cs then
    match splitLim ':' 3 cs with
    | [p0, p1, p2, p3] =>
      match pyIntOf p1 with
      | none => .error p1
      | some sp =>
        match pyIntOf p3 with
        | none => .error p3
        | some dp =>
          .ok { sourceport := sp, destinationport := dp,
                sourcehost := some (String.mk p0), destinationhost := String.mk p2 }
    | [p0, p1, p2] =>
      match pyIntOf p0 with
      | none => .error p0
      | some sp =>
        match pyIntOf p2 with
        | none => .error p2
        | some dp =>
          .ok { sourceport := sp, destinationport := dp, destinationhost := String.mk p1 }
    | [p0, p1] =>
      match pyIntOf p0 with
      | none => .error p0
      | some sp =>
        match pyIntOf p1 with
        | none => .error p1
        | some dp => .ok { sourceport := sp, destinationport := dp }
    | _ => .error cs
  else
    match pyIntChars? (trimChars cs) with
    | none => .error (trimChars cs)
    | some n => .ok { sourceport := n, destinationport := n }

/-- `ForwardingPort.parse`. -/
def ForwardingPort.parse : PortSpec → Except (List Char) ForwardingPort
  | .num n => .ok { sourceport := n, destinationport := n }
  | .pair a b => .ok { sourceport := a, destinationport := b }
  | .rule p => .ok p
  | .str s => parseChars s.toList

/-- `DuplicateLocalPort(requested, current)`: the exception raised by
`clean_ports`; `requested` is the local port, `current` the destination it is
already mapped to. -/
structure DuplicateLocalPort where
  requested : Int
  current : Int
deriving DecidableEq

/-- Lookup in the `port_map` dict of `clean_ports`. -/
def pmFind (pm : List (Int × Int)) (k : Int) : Option Int :=
  match pm with
  | [] => none
  | e :: rest => if e.1 = k then some e.2 else pmFind rest k

/-- Loop body of `clean_ports`: raise on a local port already mapped to a
different destination, skip a pair already seen, otherwise record and yield. -/
def clean_ports_go (pm : List (Int × Int)) :
    List ForwardingPort → Except DuplicateLocalPort (List ForwardingPort)
  | [] => .ok []
  | p :: rest =>
    match pmFind pm p.sourceport with
    | some cur =>
      if cur = p.destinationport then clean_ports_go pm rest
      else .error { requested := p.sourceport, current := cur }
    | none =>
      match clean_ports_go (pm ++ [(p.sourceport, p.destinationport)]) rest with
      | .ok l => .ok (p :: l)
      | .error e => .error e

/-- `clean_ports`, fully consumed. -/
def clean_ports (l : List ForwardingPort) : Except DuplicateLocalPort (List ForwardingPort) :=
  clean_ports_go [] l

/-- Specification-side helper: keep each rule whose source port has not been
seen before, in order of first occurrence. -/
def firstBySource (seen : List Int) : List ForwardingPort → List ForwardingPort
  | [] => []
  | p :: rest =>
    if p.sourceport ∈ seen then firstBySource seen rest
    else p :: firstBySource (p.sourceport :: seen) rest

/-- Two rules are compatible when mapping the same source port implies the
same destination port. -/
def portCompat (p q : ForwardingPort) : Prop :=
  p.sourceport = q.sourceport → p.destinationport = q.destinationport

instance (p q : ForwardingPort) : Decidable (portCompat p q) := by
  unfold portCompat; infer_instance

/-- Invariant of the `clean_ports` loop: a rule agrees with the accumulated
port map when any destination recorded for its source port is its own. -/
def pmAgrees (pm : List (Int × Int)) (p : ForwardingPort) : Prop :=
  ∀ c, pmFind pm p.sourceport = some c → p.destinationport = c

/-! ## Connection-state classifier (`ContinuousSSH._handle_ssh_line`) -/

/-- The `Action` enum of `continuous.py`. -/
inductive Action where
  | CONTINUE
  | CONNECTED
  | DISCONNECTED
deriving DecidableEq

/-- Python `pattern in line` substring containment. -/
def containsSub (s pat : String) : Bool :=
  decide (pat.toList <:+: s.toList)

/-- Result of `_handle_ssh_line`: the returned action, the line as logged
(and sent to the messenger), and whether it went to the debug-level sink. -/
structure HandledLine where
  action : Action
  logged : String
  debugLevel : Bool
deriving DecidableEq

/-- `ContinuousSSH._handle_ssh_line`: strip a `debug1:` prefix (whitespace
trimmed) and log at debug level, otherwise log at info level; then classify
the (possibly stripped) line, `not responding` overriding
`Entering interactive session`. -/
def handle_ssh_line (line : String) : HandledLine :=
  let dbg := "debug1:".toList.isPrefixOf line.toList
  let l := if dbg then String.mk (trimChars (line.toList.drop 7)) else line
  let a0 := Action.CONTINUE
  let a1 := if containsSub l "Entering interactive session" then Action.CONNECTED else a0
  let a2 := if containsSub l "not responding" then Action.DISCONNECTED else a1
  { action := a2, logged := l, debugLevel := dbg }

/-! ## Backoff (`ContinuousSSH._backoff`)

Durations are modelled as rationals. -/

/-- The mutable backoff fields of `ContinuousSSH`. -/
structure ContinuousState where
  backoff_time : ℚ
  max_backoff_time : ℚ
deriving DecidableEq

/-- One pass through `_backoff` after an attempt of the given elapsed
duration: returns the time slept and the updated state. -/
def backoff_update (st : ContinuousState) (duration : ℚ) : ℚ × ContinuousState :=
  if duration < st.backoff_time then
    (st.backoff_time - duration,
      { st with backoff_time := min (2 * st.backoff_time) st.max_backoff_time })
  else
    (0, { st with backoff_time := 1/10 })

/-! ## Option dict (`SSHOptions` in `helpers.py`)

Python dict with string keys: association list, first-match lookup,
in-place replacement on assignment, append on a new key. -/

/-- Python `str.lower()` on one character (ASCII; option names are ASCII). -/
def lowerChar (c : Char) : Char :=
  if 'A' ≤ c && c ≤ 'Z' then Char.ofNat (c.toNat + 32) else c

/-- Python `str.lower()` (ASCII). -/
def strLower (s : String) : String :=
  String.mk (s.toList.map lowerChar)

/-- A value stored in the `_values` dict: `None`, a bool, an int, a string,
or a reference to a heap-allocated list of forwarding ports. -/
inductive OptVal where
  | vnone
  | vbool (b : Bool)
  | vint (n : Int)
  | vstr (s : String)
  | vports (r : Nat)
deriving DecidableEq

/-- The underlying `_values` dict. -/
abbrev OptionsDict := List (String × OptVal)

/-- Python dict lookup. -/
def dictFind (m : OptionsDict) (k : String) : Option OptVal :=
  match m with
  | [] => none
  | e :: rest => if e.1 = k then some e.2 else dictFind rest k

/-- Python dict assignment: replace in place, else append. -/
def dictSet (m : OptionsDict) (k : String) (v : OptVal) : OptionsDict :=
  match m with
  | [] => [(k, v)]
  | e :: rest => if e.1 = k then (k, v) :: rest else e :: dictSet rest k v

/-- `SSHOptions.__getitem__` (missing key modelled as `none`): lowercases. -/
def SSHOptions.getItem (m : OptionsDict) (k : String) : Option OptVal :=
  dictFind m (strLower k)

/-- `SSHOptions.__setitem__`: lowercases. -/
def SSHOptions.setItem (m : OptionsDict) (k : String) (v : OptVal) : OptionsDict :=
  dictSet m (strLower k) v

/-- `SSHOptions.get` with an explicit default: lowercases. -/
def SSHOptions.getD (m : OptionsDict) (k : String) (d : OptVal) : OptVal :=
  (dictFind m (strLower k)).getD d

/-- `SSHOptions.setdefault`: lowercases; returns the resulting value and the
updated dict. -/
def SSHOptions.setdefault (m : OptionsDict) (k : String) (d : OptVal) : OptVal × OptionsDict :=
  match dictFind m (strLower k) with
  | some v => (v, m)
  | none => (d, dictSet m (strLower k) d)

/-- `SSHOptions.update`: plain `dict.update`, keys stored verbatim, no
lowercasing. -/
def SSHOptions.update (m : OptionsDict) (opts : OptionsDict) : OptionsDict :=
  opts.foldl (fun acc e => dictSet acc e.1 e.2) m

/-! ## Heap of mutable Python lists -/

/-- A heap cell: a list of strings (host or trailing arguments) or a list of
forwarding ports. -/
inductive Cell where
  | strs (xs : List String)
  | ports (xs : List ForwardingPort)
deriving DecidableEq

/-- The heap: cells addressed by allocation order. -/
abbrev Heap := List Cell

/-- Read a heap cell. -/
def Heap.read (h : Heap) (r : Nat) : Option Cell :=
  h.get? r

/-- Overwrite a heap cell (in-place list mutation). -/
def Heap.write (h : Heap) (r : Nat) (c : Cell) : Heap :=
  h.set r c

/-- Allocate a fresh cell. -/
def Heap.alloc (h : Heap) (c : Cell) : Heap × Nat :=
  (h ++ [c], h.length)

/-- Read a string-list cell. -/
def Heap.readStrs (h : Heap) (r : Nat) : Option (List String) :=
  match Heap.read h r with
  | some (.strs xs) => some xs
  | _ => none

/-- Read a port-list cell. -/
def Heap.readPorts (h : Heap) (r : Nat) : Option (List ForwardingPort) :=
  match Heap.read h r with
  | some (.ports xs) => some xs
  | _ => none

/-! ## Option descriptors (`helpers.py`) and the SSH configuration -/

/-- The declared type of an `SSHOption`. -/
inductive OptTy where
  | tbool
  | tint
  | tstr
deriving DecidableEq

/-- The two directions of `SSHPortForwarding`. -/
inductive ForwardMode where
  | flocal
  | fremote
deriving DecidableEq

/-- A registered descriptor: `SSHFlag`, `SSHOption`, or `SSHPortForwarding`,
with its storage name. -/
inductive Descriptor where
  | flag (name : String) (flagToken : String)
  | option (name : String) (ty : OptTy)
  | portForwarding (name : String) (mode : ForwardMode)
deriving DecidableEq

/-- Python truthiness of a stored value (`bool(value)`); reading a port list
follows its reference. -/
def pyTruthy (heap : Heap) : OptVal → Except String Bool
  | .vnone => .ok false
  | .vbool b => .ok b
  | .vint n => .ok (decide (n ≠ 0))
  | .vstr s => .ok (decide (s ≠ ""))
  | .vports r =>
    match Heap.readPorts heap r with
    | some l => .ok (decide (l ≠ []))
    | none => .error "invalid reference"

/-- `SSHFlag.arguments`: nothing when unset, the bare flag token when true,
nothing when false; a non-bool stored value raises `SSHTypeError`. -/
def flagArguments (name flagToken : String) (m : OptionsDict) : Except String (List String) :=
  match SSHOptions.getItem m name with
  | none => .ok []
  | some .vnone => .ok []
  | some (.vbool b) => .ok (if b then [flagToken] else [])
  | some _ => .error "SSHTypeError"

/-- `SSHOption.arguments`: nothing when unset; otherwise `-o "NAME value"`,
the value formatted by the declared type (bool by truthiness as yes/no, int
by format d — which also accepts a bool —, str by format s); a mismatched
runtime value raises. -/
def optionArguments (name : String) (ty : OptTy) (m : OptionsDict) (heap : Heap) :
    Except String (List String) :=
  match SSHOptions.getItem m name with
  | none => .ok []
  | some .vnone => .ok []
  | some v =>
    match ty with
    | .tbool => do
      let b ← pyTruthy heap v
      .ok ["-o", name ++ " " ++ (if b then "yes" else "no")]
    | .tint =>
      match v with
      | .vint n => .ok ["-o", name ++ " " ++ String.mk (intChars n)]
      | .vbool b => .ok ["-o", name ++ " " ++ (if b then "1" else "0")]
      | _ => .error "ValueError: format d"
    | .tstr =>
      match v with
      | .vstr s => .ok ["-o", name ++ " " ++ s]
      | _ => .error "ValueError: format s"

/-- Loop of `SSHPortForwarding.arguments`: emit `[-L|-R, str(port)]` for each
rule not yet seen (a constructed rule is always truthy, so the falsy check of
the source never skips). -/
def portTokensGo (arg : String) (seen : List ForwardingPort) :
    List ForwardingPort → List String
  | [] => []
  | p :: rest =>
    if p ∈ seen then portTokensGo arg seen rest
    else arg :: ForwardingPort.toDisplay p :: portTokensGo arg (p :: seen) rest

/-- `SSHPortForwarding.arguments`: nothing for an unset or falsy value,
otherwise the deduplicated two-token forms; iterating a truthy non-list
raises. -/
def portForwardArguments (name : String) (mode : ForwardMode) (m : OptionsDict) (heap : Heap) :
    Except String (List String) :=
  let arg := match mode with | .flocal => "-L" | .fremote => "-R"
  match SSHOptions.getItem m name with
  | none => .ok []
  | some (.vports r) =>
    match Heap.readPorts heap r with
    | some l => .ok (portTokensGo arg [] l)
    | none => .error "invalid reference"
  | some v => do
    let b ← pyTruthy heap v
    if b then .error "TypeError: not iterable" else .ok []

/-- Rendering dispatch over the three descriptor kinds. -/
def Descriptor.argumentsOf (d : Descriptor) (m : OptionsDict) (heap : Heap) :
    Except String (List String) :=
  match d with
  | .flag name tok => flagArguments name tok m
  | .option name ty => optionArguments name ty m heap
  | .portForwarding name mode => portForwardArguments name mode m heap

/-- The descriptor registry of `SSHConfiguration`, in declaration order
(`ConnectTimeout` is registered once although bound to two class names). -/
def sshRegistry : List Descriptor :=
  [ .flag "no_remote_command" "-N",
    .flag "verbose" "-v",
    .option "ServerAliveInterval" .tint,
    .option "ConnectTimeout" .tint,
    .option "StrictHostKeyChecking" .tstr,
    .option "BatchMode" .tbool,
    .option "ExitOnForwardFailure" .tbool,
    .portForwarding "forward_local" .flocal,
    .portForwarding "forward_remote" .fremote ]

/-- `SSHConfiguration`: the `_values` dict plus references to the mutable
`host` and `args` lists. -/
structure SSHConfiguration where
  options : OptionsDict
  host : Nat
  args : Nat
deriving DecidableEq

/-- Python `host or []` applied to a list reference: reuse the reference when
the list is truthy (non-empty), otherwise allocate a fresh empty list. -/
def listOrNew (heap : Heap) (r : Option Nat) : Heap × Nat :=
  match r with
  | none => Heap.alloc heap (.strs [])
  | some r =>
    match Heap.readStrs heap r with
    | some [] => Heap.alloc heap (.strs [])
    | _ => (heap, r)

/-- `SSHConfiguration.__init__(host, args, options)`: a fresh `_values` dict,
updated from `options` when truthy; `host or []` and `args or []`. -/
def SSHConfiguration.init (heap : Heap) (host args : Option Nat)
    (options : Option OptionsDict) : SSHConfiguration × Heap :=
  let opts := match options with
    | some o => if o = [] then [] else SSHOptions.update [] o
    | none => []
  let p1 := listOrNew heap host
  let p2 := listOrNew p1.1 args
  ({ options := opts, host := p1.2, args := p2.2 }, p2.1)

/-- `SSHConfiguration.copy`: re-construct from the original's `_values` dict
and its `host` and `args` list objects. -/
def SSHConfiguration.copy (cfg : SSHConfiguration) (heap : Heap) : SSHConfiguration × Heap :=
  SSHConfiguration.init heap (some cfg.host) (some cfg.args) (some cfg.options)

/-- The rendering loop of `SSHConfiguration.arguments`: walk the registered
descriptors in order, extending the accumulated token list; a raised
rendering error aborts the loop. -/
def renderOptions (m : OptionsDict) (heap : Heap) :
    List Descriptor → List String → Except String (List String)
  | [], acc => .ok acc
  | d :: ds, acc =>
    match Descriptor.argumentsOf d m heap with
    | .ok a => renderOptions m heap ds (acc ++ a)
    | .error e => .error e

/-- `SSHConfiguration.arguments`: start from the program name, extend with
each registered descriptor's tokens in registration order, then the host
tokens, then (by default) the trailing arguments. -/
def SSHConfiguration.arguments (cfg : SSHConfiguration) (heap : Heap)
    (include_cmd_args : Bool) : Except String (List String) :=
  match renderOptions cfg.options heap sshRegistry ["ssh"] with
  | .error e => .error e
  | .ok toks =>
    match Heap.readStrs heap cfg.host, Heap.readStrs heap cfg.args with
    | some hostL, some argsL =>
      .ok (toks ++ hostL ++ (if include_cmd_args then argsL else []))
    | _, _ => .error "invalid reference"

/-- `config.verbose = True` through the `SSHFlag` descriptor:
`bool(True)` stored under the lowercased attribute name. -/
def SSHConfiguration.setVerbose (cfg : SSHConfiguration) (b : Bool) : SSHConfiguration :=
  { cfg with options := SSHOptions.setItem cfg.options "verbose" (.vbool b) }

/-- `SSHDescriptorBase.__set__` with a (non-None) string value: convert with
the declared type first — `bool(s)` and `str(s)` are total, `int(s)` raises
on a non-numeric string — then store. -/
def descriptorSet (name : String) (ty : OptTy) (m : OptionsDict) (value : String) :
    Except String OptionsDict :=
  match ty with
  | .tbool => .ok (SSHOptions.setItem m name (.vbool (decide (value ≠ ""))))
  | .tint =>
    match pyIntOf value.toList with
    | some n => .ok (SSHOptions.setItem m name (.vint n))
    | none => .error ("invalid literal for int with base 10: " ++ value)
  | .tstr => .ok (SSHOptions.setItem m name (.vstr value))

/-- The dict observed by the caller after `__set__` returns or raises: the
conversion happens before the assignment, so a raised conversion error leaves
the dict untouched. -/
def descriptorSetRecover (name : String) (ty : OptTy) (m : OptionsDict) (value : String) :
    OptionsDict :=
  match descriptorSet name ty m value with
  | .ok m' => m'
  | .error _ => m

/-- A string is incompatible with a declared option type when converting it
raises: only a non-numeric string for `int`; `bool(s)` and `str(s)` never
raise. -/
def incompatibleString (ty : OptTy) (s : String) : Prop :=
  match ty with
  | .tint => pyIntOf s.toList = none
  | _ => False

/-! ## ContinuousSSH construction (`continuous.py`) -/

/-- The supervisor state built by `ContinuousSSH.__init__`: it sets
`config.verbose = True` on the configuration it was given, and initialises
the backoff threshold to 0.1 with a maximum of 2.0. -/
structure ContinuousSSH where
  config : SSHConfiguration
  backoff : ContinuousState
  subproc_stdout_timeout : ℚ
deriving DecidableEq

/-- `ContinuousSSH.__init__`. -/
def ContinuousSSH.init (config : SSHConfiguration) : ContinuousSSH :=
  let config := SSHConfiguration.setVerbose config true
  { config := config,
    backoff := { backoff_time := 1/10, max_backoff_time := 2 },
    subproc_stdout_timeout := 1/10 }

/-! ## Lemmas: decimal rendering and Python int parsing -/

theorem natCharsAux_zero (fuel : Nat) : natCharsAux fuel 0 = [] := by
  cases fuel <;> simp [natCharsAux]

theorem digitVal_digitChar {d : Nat} (h : d < 10) : digitVal (digitChar d) = d := by
  interval_cases d <;> decide

theorem pyDigit_digitChar {d : Nat} (h : d < 10) : pyDigit (digitChar d) = true := by
  interval_cases d <;> decide

theorem valFold_append (xs : List Char) (c : Char) :
    valFold (xs ++ [c]) = 10 * valFold xs + digitVal c := by
  simp [valFold, List.foldl_append]

theorem natCharsAux_spec :
    ∀ fuel n, 0 < n → n ≤ fuel →
      (∀ c ∈ natCharsAux fuel n, pyDigit c = true) ∧ natCharsAux fuel n ≠ [] ∧
        valFold (natCharsAux fuel n) = n := by
  intro fuel
  induction fuel with
  | zero => intro n h1 h2; omega
  | succ f ih =>
    intro n h1 h2
    have hmod : n % 10 < 10 := Nat.mod_lt _ (by omega)
    rw [natCharsAux, if_neg (by omega)]
    by_cases h10 : n / 10 = 0
    · have hlt : n < 10 := by omega
      rw [h10, natCharsAux_zero, List.nil_append]
      refine ⟨?_, by simp, ?_⟩
      · intro c hc
        rw [List.mem_singleton] at hc
        exact hc ▸ pyDigit_digitChar hmod
      · have : valFold [digitChar (n % 10)] = digitVal (digitChar (n % 10)) := by
          simp [valFold]
        rw [this, digitVal_digitChar hmod]
        omega
    · obtain ⟨hall, hne, hval⟩ := ih (n / 10) (by omega) (by
        have := Nat.div_lt_self h1 (by omega : 1 < 10)
        omega)
      refine ⟨?_, by simp, ?_⟩
      · intro c hc
        rcases List.mem_append.mp hc with h | h
        · exact hall c h
        · rw [List.mem_singleton] at h
          exact h ▸ pyDigit_digitChar hmod
      · rw [valFold_append, hval, digitVal_digitChar hmod]
        omega

theorem natChars_spec (n : Nat) :
    (∀ c ∈ natChars n, pyDigit c = true) ∧ natChars n ≠ [] ∧ valFold (natChars n) = n := by
  by_cases h : n = 0
  · subst h
    refine ⟨?_, by decide, by decide⟩
    intro c hc
    rw [natChars] at hc
    simp at hc
    subst hc; decide
  · rw [natChars, if_neg h]
    exact natCharsAux_spec (n + 1) n (by omega) (by omega)

theorem mem_of_head? {cs : List Char} {c : Char} (h : cs.head? = some c) : c ∈ cs := by
  cases cs with
  | nil => simp at h
  | cons d rest =>
    simp at h
    exact h ▸ List.mem_cons_self _ _

theorem mem_of_getLast? {cs : List Char} {c : Char} (h : cs.getLast? = some c) : c ∈ cs := by
  rw [List.getLast?_eq_head?_reverse] at h
  exact List.mem_reverse.mp (mem_of_head? h)

theorem pyNumBody_of_digits {cs : List Char} (h1 : cs ≠ [])
    (h2 : ∀ c ∈ cs, pyDigit c = true) : pyNumBody cs = true := by
  have hu : '_' ∉ cs := by
    intro hm
    exact absurd (h2 _ hm) (by decide)
  rw [pyNumBody]
  simp only [Bool.and_eq_true, Bool.not_eq_true', decide_eq_true_eq, decide_eq_false_iff_not]
  refine ⟨⟨⟨⟨h1, ?_⟩, ?_⟩, ?_⟩, ?_⟩
  · rw [List.all_eq_true]
    intro c hc
    simp [h2 c hc]
  · intro h
    exact hu (mem_of_head? h)
  · intro h
    exact hu (mem_of_getLast? h)
  · intro h
    exact hu (h.subset (by simp))

theorem pyNat?_natChars (n : Nat) : pyNat? (natChars n) = some n := by
  obtain ⟨hall, hne, hval⟩ := natChars_spec n
  have hfil : (natChars n).filter (fun c => c ≠ '_') = natChars n := by
    rw [List.filter_eq_self]
    intro c hc
    have := hall c hc
    simp only [ne_eq, decide_eq_true_eq]
    intro h
    exact absurd (h ▸ this) (by decide)
  rw [pyNat?, if_pos (pyNumBody_of_digits hne hall), hfil, hval]

theorem intChars_chars {n : Int} : ∀ c ∈ intChars n, c = '-' ∨ pyDigit c = true := by
  intro c hc
  rw [intChars] at hc
  split at hc
  · rcases List.mem_cons.mp hc with rfl | h
    · exact Or.inl rfl
    · exact Or.inr ((natChars_spec _).1 c h)
  · exact Or.inr ((natChars_spec _).1 c hc)

theorem pyIntChars?_cons (c : Char) (rest : List Char) :
    pyIntChars? (c :: rest) =
      if c = '+' then (pyNat? rest).map (fun n => (n : Int))
      else if c = '-' then (pyNat? rest).map (fun n => -(n : Int))
      else (pyNat? (c :: rest)).map (fun n => (n : Int)) := rfl

theorem pyIntChars?_intChars (n : Int) : pyIntChars? (intChars n) = some n := by
  by_cases hn : n < 0
  · rw [intChars, if_pos hn, pyIntChars?_cons, if_neg (by decide), if_pos rfl, pyNat?_natChars]
    show some (-(n.natAbs : Int)) = some n
    congr 1
    omega
  · rw [intChars, if_neg hn]
    obtain ⟨hall, hne, -⟩ := natChars_spec n.toNat
    cases h : natChars n.toNat with
    | nil => exact absurd h hne
    | cons c rest =>
      have hc : pyDigit c = true := hall c (h ▸ List.mem_cons_self _ _)
      have h1 : ¬c = '+' := fun heq => absurd (heq ▸ hc) (by decide)
      have h2 : ¬c = '-' := fun heq => absurd (heq ▸ hc) (by decide)
      rw [pyIntChars?_cons, if_neg h1, if_neg h2, ← h, pyNat?_natChars]
      show some ((n.toNat : Int)) = some n
      congr 1
      omega

theorem dropWhile_eq_self_of {p : Char → Bool} {cs : List Char}
    (h : ∀ c ∈ cs, p c = false) : cs.dropWhile p = cs := by
  cases cs with
  | nil => rfl
  | cons c rest =>
    refine List.dropWhile_cons_of_neg ?_
    simp [h c (List.mem_cons_self _ _)]

theorem trimChars_eq_self {cs : List Char} (h : ∀ c ∈ cs, pySpace c = false) :
    trimChars cs = cs := by
  rw [trimChars, dropWhile_eq_self_of h,
    dropWhile_eq_self_of (fun c hc => h c (List.mem_reverse.mp hc)), List.reverse_reverse]

theorem pyDigit_not_space {c : Char} (h : pyDigit c = true) : pySpace c = false := by
  cases hs : pySpace c
  · rfl
  · exfalso
    rw [pySpace] at hs
    simp only [Bool.or_eq_true, decide_eq_true_eq] at hs
    rcases hs with ((((rfl | rfl) | rfl) | rfl) | rfl) | rfl <;> exact absurd h (by decide)

theorem intChars_no_space {n : Int} : ∀ c ∈ intChars n, pySpace c = false := by
  intro c hc
  rcases intChars_chars c hc with rfl | h
  · decide
  · exact pyDigit_not_space h

theorem pyIntOf_intChars (n : Int) : pyIntOf (intChars n) = some n := by
  rw [pyIntOf, trimChars_eq_self intChars_no_space, pyIntChars?_intChars]

theorem pyNat?_chars {cs : List Char} {n : Nat} (h : pyNat? cs = some n) :
    ∀ c ∈ cs, pyDigit c = true ∨ c = '_' := by
  intro c hc
  rw [pyNat?] at h
  split at h
  · next hb =>
    rw [pyNumBody] at hb
    simp only [Bool.and_eq_true, List.all_eq_true] at hb
    have := hb.1.1.1.2 c hc
    simpa using this
  · exact absurd h (by simp)

theorem pyIntChars?_chars {cs : List Char} {n : Int} (h : pyIntChars? cs = some n) :
    ∀ c ∈ cs, c = '+' ∨ c = '-' ∨ pyDigit c = true ∨ c = '_' := by
  intro c hc
  cases cs with
  | nil => exact absurd hc (by simp)
  | cons d rest =>
    rw [pyIntChars?_cons] at h
    by_cases hp : d = '+'
    · rw [if_pos hp] at h
      rcases List.mem_cons.mp hc with rfl | hm
      · exact Or.inl hp
      · cases hpn : pyNat? rest with
        | none => rw [hpn] at h; exact absurd h (by simp)
        | some m =>
        rcases pyNat?_chars hpn c hm with h' | h'
        · exact Or.inr (Or.inr (Or.inl h'))
        · exact Or.inr (Or.inr (Or.inr h'))
    · rw [if_neg hp] at h
      by_cases hmn : d = '-'
      · rw [if_pos hmn] at h
        rcases List.mem_cons.mp hc with rfl | hm
        · exact Or.inr (Or.inl hmn)
        · cases hpn : pyNat? rest with
          | none => rw [hpn] at h; exact absurd h (by simp)
          | some m =>
          rcases pyNat?_chars hpn c hm with h' | h'
          · exact Or.inr (Or.inr (Or.inl h'))
          · exact Or.inr (Or.inr (Or.inr h'))
      · rw [if_neg hmn] at h
        cases hpn : pyNat? (d :: rest) with
        | none => rw [hpn] at h; exact absurd h (by simp)
        | some m =>
        rcases pyNat?_chars hpn c hc with h' | h'
        · exact Or.inr (Or.inr (Or.inl h'))
        · exact Or.inr (Or.inr (Or.inr h'))

theorem colon_not_mem_pyInt {cs : List Char} {n : Int} (h : pyIntChars? cs = some n) :
    ':' ∉ cs := by
  intro hm
  rcases pyIntChars?_chars h ':' hm with h' | h' | h' | h' <;> exact absurd h' (by decide)

theorem comma_not_mem_pyInt {cs : List Char} {n : Int} (h : pyIntChars? cs = some n) :
    ',' ∉ cs := by
  intro hm
  rcases pyIntChars?_chars h ',' hm with h' | h' | h' | h' <;> exact absurd h' (by decide)

theorem mem_dropWhile_of {p : Char → Bool} {cs : List Char} {c : Char}
    (h : c ∈ cs) (hc : p c = false) : c ∈ cs.dropWhile p := by
  induction cs with
  | nil => exact absurd h (by simp)
  | cons d rest ih =>
    by_cases hd : p d
    · rw [List.dropWhile_cons_of_pos hd]
      rcases List.mem_cons.mp h with rfl | hm
      · rw [hc] at hd; exact absurd hd (by simp)
      · exact ih hm
    · rw [List.dropWhile_cons_of_neg hd]
      exact h

theorem mem_trimChars_of {cs : List Char} {c : Char} (h : c ∈ cs) (hc : pySpace c = false) :
    c ∈ trimChars cs := by
  rw [trimChars, List.mem_reverse]
  exact mem_dropWhile_of (List.mem_reverse.mpr (mem_dropWhile_of h hc)) hc

theorem pyIntOf_none_of_colon {cs : List Char} (hc : ':' ∈ cs) : pyIntOf cs = none := by
  cases h : pyIntOf cs with
  | none => rfl
  | some n =>
    rw [pyIntOf] at h
    exact absurd (mem_trimChars_of hc (by decide)) (colon_not_mem_pyInt h)

theorem trimChars_sub (cs : List Char) : trimChars cs <:+: cs := by
  obtain ⟨t1, h1⟩ := List.dropWhile_suffix (l := cs) pySpace
  obtain ⟨t2, h2⟩ := List.dropWhile_suffix (l := (cs.dropWhile pySpace).reverse) pySpace
  refine ⟨t1, t2.reverse, ?_⟩
  have h3 : trimChars cs ++ t2.reverse = cs.dropWhile pySpace := by
    rw [trimChars]
    have h4 := congrArg List.reverse h2
    rw [List.reverse_append, List.reverse_reverse] at h4
    exact h4
  rw [List.append_assoc, h3, h1]

/-- Alias: takeWhile gives an initial segment of the list. -/
theorem takeWhile_pre (p : Char → Bool) (l : List Char) : l.takeWhile p <+: l :=
  List.takeWhile_prefix p

/-! ## Lemmas: split with maxsplit -/

theorem splitLim_ne_nil (sep : Char) (lim : Nat) (cs : List Char) :
    splitLim sep lim cs ≠ [] := by
  cases lim with
  | zero => simp [splitLim]
  | succ l =>
    rw [splitLim]
    split <;> simp

theorem takeWhile_append_sep {sep : Char} {a : List Char} (rest : List Char)
    (ha : sep ∉ a) : (a ++ sep :: rest).takeWhile (fun c => c ≠ sep) = a := by
  induction a with
  | nil => simp [List.takeWhile_cons]
  | cons c t ih =>
    have hc : c ≠ sep := fun h => ha (h ▸ List.mem_cons_self c t)
    rw [List.cons_append, List.takeWhile_cons]
    simp only [ne_eq, hc, not_false_eq_true, decide_True, if_true]
    rw [ih (fun h => ha (List.mem_cons_of_mem _ h))]

theorem dropWhile_append_sep {sep : Char} {a : List Char} (rest : List Char)
    (ha : sep ∉ a) : (a ++ sep :: rest).dropWhile (fun c => c ≠ sep) = sep :: rest := by
  induction a with
  | nil => simp [List.dropWhile_cons]
  | cons c t ih =>
    have hc : c ≠ sep := fun h => ha (h ▸ List.mem_cons_self c t)
    rw [List.cons_append, List.dropWhile_cons_of_pos (by simp [hc])]
    exact ih (fun h => ha (List.mem_cons_of_mem _ h))

theorem splitLim_append {sep : Char} {a : List Char} (lim : Nat) (rest : List Char)
    (ha : sep ∉ a) :
    splitLim sep (lim + 1) (a ++ sep :: rest) = a :: splitLim sep lim rest := by
  rw [splitLim, if_pos (List.mem_append_right _ (List.mem_cons_self _ _)),
    takeWhile_append_sep rest ha, dropWhile_append_sep rest ha]
  rfl

theorem splitLim_not_mem {sep : Char} {cs : List Char} (lim : Nat) (h : sep ∉ cs) :
    splitLim sep lim cs = [cs] := by
  cases lim with
  | zero => rfl
  | succ l => rw [splitLim, if_neg h]

theorem splitLim_sub {sep : Char} : ∀ (lim : Nat) (cs : List Char),
    ∀ part ∈ splitLim sep lim cs, part <:+: cs := by
  intro lim
  induction lim with
  | zero =>
    intro cs part hp
    rw [splitLim] at hp
    simp at hp
    exact hp ▸ ⟨[], [], by simp⟩
  | succ l ih =>
    intro cs part hp
    by_cases hm : sep ∈ cs
    · rw [splitLim, if_pos hm] at hp
      rcases List.mem_cons.mp hp with rfl | hp'
      · exact (takeWhile_pre _ _).isInfix
      · have h1 := ih _ part hp'
        have h2 : (cs.dropWhile (fun c => c ≠ sep)).tail <:+ cs :=
          (List.tail_suffix _).trans (List.dropWhile_suffix _)
        exact h1.trans h2.isInfix
    · rw [splitLim_not_mem _ hm] at hp
      simp at hp
      exact hp ▸ ⟨[], [], by simp⟩

theorem splitLim_init_no_sep {sep : Char} : ∀ (lim : Nat) (cs : List Char),
    ∀ part ∈ (splitLim sep lim cs).dropLast, sep ∉ part := by
  intro lim
  induction lim with
  | zero =>
    intro cs part hp
    simp [splitLim] at hp
  | succ l ih =>
    intro cs part hp
    by_cases hm : sep ∈ cs
    · rw [splitLim, if_pos hm] at hp
      cases hlist : splitLim sep l ((cs.dropWhile (fun c => c ≠ sep)).tail) with
      | nil => exact absurd hlist (splitLim_ne_nil sep l _)
      | cons q qs =>
        rw [hlist] at hp
        rcases List.mem_cons.mp hp with rfl | hp'
        · intro hx
          simpa using List.mem_takeWhile_imp hx
        · exact ih _ part (hlist ▸ hp')
    · rw [splitLim_not_mem _ hm] at hp
      simp at hp

theorem dropWhile_sep_cons {sep : Char} : ∀ {cs : List Char}, sep ∈ cs →
    cs.dropWhile (fun c => c ≠ sep) = sep :: (cs.dropWhile (fun c => c ≠ sep)).tail := by
  intro cs hm
  induction cs with
  | nil => simp at hm
  | cons c t ih =>
    by_cases hc : c = sep
    · subst hc
      rw [List.dropWhile_cons_of_neg (by simp)]
      rfl
    · rw [List.dropWhile_cons_of_pos (by simp [hc])]
      refine ih ?_
      rcases List.mem_cons.mp hm with h | h
      · exact absurd h.symm hc
      · exact h

theorem splitLim_full {sep : Char} : ∀ (lim : Nat) (cs : List Char),
    lim < cs.count sep →
    ∃ ps p, splitLim sep lim cs = ps ++ [p] ∧ ps.length = lim ∧ sep ∈ p := by
  intro lim
  induction lim with
  | zero =>
    intro cs h
    exact ⟨[], cs, rfl, rfl, List.count_pos_iff.mp (by omega)⟩
  | succ l ih =>
    intro cs h
    have hm : sep ∈ cs := List.count_pos_iff.mp (by omega)
    have hna : sep ∉ cs.takeWhile (fun c => c ≠ sep) := by
      intro hx
      simpa using List.mem_takeWhile_imp hx
    have hdecomp : cs = cs.takeWhile (fun c => c ≠ sep) ++
        sep :: (cs.dropWhile (fun c => c ≠ sep)).tail := by
      conv_lhs => rw [← List.takeWhile_append_dropWhile (p := fun c => c ≠ sep) (l := cs),
        dropWhile_sep_cons hm]
    have hcount : cs.count sep = ((cs.dropWhile (fun c => c ≠ sep)).tail).count sep + 1 := by
      conv_lhs => rw [hdecomp]
      rw [List.count_append, List.count_cons_self, List.count_eq_zero.mpr hna]
      omega
    obtain ⟨ps, p, hsplit, hlen, hp⟩ := ih ((cs.dropWhile (fun c => c ≠ sep)).tail) (by omega)
    refine ⟨cs.takeWhile (fun c => c ≠ sep) :: ps, p, ?_, by simp [hlen], hp⟩
    conv_lhs => rw [hdecomp, splitLim_append l _ hna]
    rw [hsplit, List.cons_append]

/-! ## Lemmas: parse branches -/

theorem string_mk_toList (s : String) : String.mk s.toList = s := rfl

theorem intChars_no_colon {n : Int} : ':' ∉ intChars n := by
  intro h
  rcases intChars_chars ':' h with h' | h' <;> exact absurd h' (by decide)

theorem intChars_no_comma {n : Int} : ',' ∉ intChars n := by
  intro h
  rcases intChars_chars ',' h with h' | h' <;> exact absurd h' (by decide)

theorem parseChars_eq_comma {cs : List Char} (hcomma : ',' ∈ cs) :
    parseChars cs =
      match pyIntChars? (trimChars (cs.takeWhile (fun c => c ≠ ','))) with
      | none => .error (trimChars (cs.takeWhile (fun c => c ≠ ',')))
      | some a =>
        match pyIntChars? (trimChars ((cs.dropWhile (fun c => c ≠ ',')).tail)) with
        | none => .error (trimChars ((cs.dropWhile (fun c => c ≠ ',')).tail))
        | some b => .ok { sourceport := a, destinationport := b } := by
  rw [parseChars, if_pos hcomma]

theorem parseChars_eq_fallback {cs : List Char} (hcomma : ',' ∉ cs) (hcolon : ':' ∉ cs) :
    parseChars cs =
      match pyIntChars? (trimChars cs) with
      | none => .error (trimChars cs)
      | some n => .ok { sourceport := n, destinationport := n } := by
  rw [parseChars, if_neg hcomma, if_neg hcolon]

theorem parseChars_eq_two {cs a b : List Char} (hcomma : ',' ∉ cs) (hcolon : ':' ∈ cs)
    (hsplit : splitLim ':' 3 cs = [a, b]) :
    parseChars cs =
      match pyIntOf a with
      | none => .error a
      | some sp =>
        match pyIntOf b with
        | none => .error b
        | some dp => .ok { sourceport := sp, destinationport := dp } := by
  rw [parseChars, if_neg hcomma, if_pos hcolon, hsplit]

theorem parseChars_eq_three {cs a b c : List Char} (hcomma : ',' ∉ cs) (hcolon : ':' ∈ cs)
    (hsplit : splitLim ':' 3 cs = [a, b, c]) :
    parseChars cs =
      match pyIntOf a with
      | none => .error a
      | some sp =>
        match pyIntOf c with
        | none => .error c
        | some dp =>
          .ok { sourceport := sp, destinationport := dp, destinationhost := String.mk b } := by
  rw [parseChars, if_neg hcomma, if_pos hcolon, hsplit]

theorem parseChars_eq_four {cs a b c d : List Char} (hcomma : ',' ∉ cs) (hcolon : ':' ∈ cs)
    (hsplit : splitLim ':' 3 cs = [a, b, c, d]) :
    parseChars cs =
      match pyIntOf b with
      | none => .error b
      | some sp =>
        match pyIntOf d with
        | none => .error d
        | some dp =>
          .ok { sourceport := sp, destinationport := dp,
                sourcehost := some (String.mk a), destinationhost := String.mk c } := by
  rw [parseChars, if_neg hcomma, if_pos hcolon, hsplit]

theorem splitLim3 {a b c : List Char} (ha : ':' ∉ a) (hb : ':' ∉ b) (hc : ':' ∉ c) :
    splitLim ':' 3 (a ++ ':' :: (b ++ ':' :: c)) = [a, b, c] := by
  have h3 : (3 : Nat) = 2 + 1 := rfl
  rw [h3, splitLim_append 2 _ ha]
  have h2 : (2 : Nat) = 1 + 1 := rfl
  rw [h2, splitLim_append 1 _ hb, splitLim_not_mem 1 hc]

theorem splitLim4 {a b c d : List Char} (ha : ':' ∉ a) (hb : ':' ∉ b) (hc : ':' ∉ c) :
    splitLim ':' 3 (a ++ ':' :: (b ++ ':' :: (c ++ ':' :: d))) = [a, b, c, d] := by
  have h3 : (3 : Nat) = 2 + 1 := rfl
  rw [h3, splitLim_append 2 _ ha]
  have h2 : (2 : Nat) = 1 + 1 := rfl
  rw [h2, splitLim_append 1 _ hb]
  have h1 : (1 : Nat) = 0 + 1 := rfl
  rw [h1, splitLim_append 0 _ hc]
  rfl

theorem parseChars_eq_nil {cs : List Char} (hcomma : ',' ∉ cs) (hcolon : ':' ∈ cs)
    (hsplit : splitLim ':' 3 cs = []) : parseChars cs = .error cs := by
  rw [parseChars, if_neg hcomma, if_pos hcolon, hsplit]

theorem parseChars_eq_one {cs a : List Char} (hcomma : ',' ∉ cs) (hcolon : ':' ∈ cs)
    (hsplit : splitLim ':' 3 cs = [a]) : parseChars cs = .error cs := by
  rw [parseChars, if_neg hcomma, if_pos hcolon, hsplit]

theorem parseChars_eq_many {cs p0 p1 p2 p3 p4 : List Char} {ps : List (List Char)}
    (hcomma : ',' ∉ cs) (hcolon : ':' ∈ cs)
    (hsplit : splitLim ':' 3 cs = p0 :: p1 :: p2 :: p3 :: p4 :: ps) :
    parseChars cs = .error cs := by
  rw [parseChars, if_neg hcomma, if_pos hcolon, hsplit]

/-- Hosts produced by a successful string parse contain no colon and no
comma. -/
theorem parseChars_hosts {cs : List Char} {p : ForwardingPort}
    (h : parseChars cs = .ok p) :
    (∀ hx, p.sourcehost = some hx → ':' ∉ hx.toList ∧ ',' ∉ hx.toList) ∧
      (':' ∉ p.destinationhost.toList ∧ ',' ∉ p.destinationhost.toList) := by
  by_cases hcomma : ',' ∈ cs
  · rw [parseChars_eq_comma hcomma] at h
    cases h1 : pyIntChars? (trimChars (cs.takeWhile (fun c => c ≠ ','))) with
    | none => rw [h1] at h; exact Except.noConfusion h
    | some a =>
      rw [h1] at h
      cases h2 : pyIntChars? (trimChars ((cs.dropWhile (fun c => c ≠ ',')).tail)) with
      | none => rw [h2] at h; exact Except.noConfusion h
      | some b =>
        rw [h2] at h
        injection h with h
        subst h
        exact ⟨fun hx hhs => Option.noConfusion hhs,
          (by decide : ':' ∉ ("localhost" : String).toList),
          (by decide : ',' ∉ ("localhost" : String).toList)⟩
  · by_cases hcolon : ':' ∈ cs
    · have hsub := @splitLim_sub ':' 3 cs
      have hinit := @splitLim_init_no_sep ':' 3 cs
      rcases hs : splitLim ':' 3 cs with _ | ⟨p0, _ | ⟨p1, _ | ⟨p2, _ | ⟨p3, _ | ⟨p4, ps⟩⟩⟩⟩⟩
      · rw [parseChars_eq_nil hcomma hcolon hs] at h
        exact Except.noConfusion h
      · rw [parseChars_eq_one hcomma hcolon hs] at h
        exact Except.noConfusion h
      · rw [parseChars_eq_two hcomma hcolon hs] at h
        cases h1 : pyIntOf p0 with
        | none => rw [h1] at h; exact Except.noConfusion h
        | some sp =>
          rw [h1] at h
          cases h2 : pyIntOf p1 with
          | none => rw [h2] at h; exact Except.noConfusion h
          | some dp =>
            rw [h2] at h
            injection h with h
            subst h
            exact ⟨fun hx hhs => Option.noConfusion hhs,
          (by decide : ':' ∉ ("localhost" : String).toList),
          (by decide : ',' ∉ ("localhost" : String).toList)⟩
      · rw [parseChars_eq_three hcomma hcolon hs] at h
        cases h1 : pyIntOf p0 with
        | none => rw [h1] at h; exact Except.noConfusion h
        | some sp =>
          rw [h1] at h
          cases h2 : pyIntOf p2 with
          | none => rw [h2] at h; exact Except.noConfusion h
          | some dp =>
            rw [h2] at h
            injection h with h
            subst h
            refine ⟨fun hx hhs => Option.noConfusion hhs, ?_, ?_⟩
            · exact hinit p1 (by rw [hs]; simp)
            · intro hm
              exact hcomma ((hsub p1 (by rw [hs]; simp)).subset hm)
      · rw [parseChars_eq_four hcomma hcolon hs] at h
        cases h1 : pyIntOf p1 with
        | none => rw [h1] at h; exact Except.noConfusion h
        | some sp =>
          rw [h1] at h
          cases h2 : pyIntOf p3 with
          | none => rw [h2] at h; exact Except.noConfusion h
          | some dp =>
            rw [h2] at h
            injection h with h
            subst h
            refine ⟨?_, ?_, ?_⟩
            · intro hx hhs
              injection hhs with hhs
              subst hhs
              refine ⟨?_, ?_⟩
              · exact hinit p0 (by rw [hs]; simp)
              · intro hm
                exact hcomma ((hsub p0 (by rw [hs]; simp)).subset hm)
            · exact hinit p2 (by rw [hs]; simp)
            · intro hm
              exact hcomma ((hsub p2 (by rw [hs]; simp)).subset hm)
      · rw [parseChars_eq_many hcomma hcolon hs] at h
        exact Except.noConfusion h
    · rw [parseChars_eq_fallback hcomma hcolon] at h
      cases h1 : pyIntChars? (trimChars cs) with
      | none => rw [h1] at h; exact Except.noConfusion h
      | some n =>
        rw [h1] at h
        injection h with h
        subst h
        exact ⟨fun hx hhs => Option.noConfusion hhs,
          (by decide : ':' ∉ ("localhost" : String).toList),
          (by decide : ',' ∉ ("localhost" : String).toList)⟩

/-- Re-parsing the rendered form of a rule whose hosts are colon- and
comma-free (and whose source host, if present, is non-empty) recovers the
rule. -/
theorem parseChars_renderChars {p : ForwardingPort}
    (hsh : ∀ hx, p.sourcehost = some hx → hx ≠ "" ∧ ':' ∉ hx.toList ∧ ',' ∉ hx.toList)
    (hdc : ':' ∉ p.destinationhost.toList) (hdm : ',' ∉ p.destinationhost.toList) :
    parseChars p.renderChars = .ok p := by
  obtain ⟨sp, dp, sh, dh⟩ := p
  cases sh with
  | none =>
    have hshape : ForwardingPort.renderChars ⟨sp, dp, none, dh⟩ =
        intChars sp ++ ':' :: (dh.toList ++ ':' :: intChars dp) := by
      simp [ForwardingPort.renderChars, ForwardingPort.sourceChars,
        ForwardingPort.destinationChars]
    have hnc : ',' ∉ intChars sp ++ ':' :: (dh.toList ++ ':' :: intChars dp) := by
      intro hm
      rcases List.mem_append.mp hm with h | h
      · exact intChars_no_comma h
      rcases List.mem_cons.mp h with h | h
      · exact absurd h (by decide)
      rcases List.mem_append.mp h with h | h
      · exact hdm h
      rcases List.mem_cons.mp h with h | h
      · exact absurd h (by decide)
      · exact intChars_no_comma h
    have hcol : ':' ∈ intChars sp ++ ':' :: (dh.toList ++ ':' :: intChars dp) :=
      List.mem_append_right _ (List.mem_cons_self _ _)
    rw [hshape, parseChars_eq_three hnc hcol (splitLim3 intChars_no_colon hdc intChars_no_colon),
      pyIntOf_intChars, pyIntOf_intChars, string_mk_toList]
  | some hh =>
    obtain ⟨hne, hc1, hm1⟩ := hsh hh rfl
    have hshape : ForwardingPort.renderChars ⟨sp, dp, some hh, dh⟩ =
        hh.toList ++ ':' :: (intChars sp ++ ':' :: (dh.toList ++ ':' :: intChars dp)) := by
      simp [ForwardingPort.renderChars, ForwardingPort.sourceChars,
        ForwardingPort.destinationChars, hne, List.append_assoc]
    have hnc : ',' ∉ hh.toList ++ ':' :: (intChars sp ++ ':' :: (dh.toList ++ ':' :: intChars dp)) := by
      intro hm
      rcases List.mem_append.mp hm with h | h
      · exact hm1 h
      rcases List.mem_cons.mp h with h | h
      · exact absurd h (by decide)
      rcases List.mem_append.mp h with h | h
      · exact intChars_no_comma h
      rcases List.mem_cons.mp h with h | h
      · exact absurd h (by decide)
      rcases List.mem_append.mp h with h | h
      · exact hdm h
      rcases List.mem_cons.mp h with h | h
      · exact absurd h (by decide)
      · exact intChars_no_comma h
    have hcol : ':' ∈ hh.toList ++ ':' :: (intChars sp ++ ':' :: (dh.toList ++ ':' :: intChars dp)) :=
      List.mem_append_right _ (List.mem_cons_self _ _)
    rw [hshape, parseChars_eq_four hnc hcol
        (splitLim4 hc1 intChars_no_colon hdc),
      pyIntOf_intChars, pyIntOf_intChars, string_mk_toList, string_mk_toList]

/-- C5 (amended): for every valid textual encoding x of a forwarding rule (a
bare integer, a 2-tuple, or any string accepted by parse) whose four-field
form does not carry an empty SRCHOST field, parsing is a left inverse of
stringification: parse (str (parse x)) = parse x. -/
theorem C5_parse_left_inverse (x : PortSpec) (p : ForwardingPort)
    (hx : ∀ q, x ≠ PortSpec.rule q)
    (hp : ForwardingPort.parse x = .ok p)
    (hsh : p.sourcehost ≠ some "") :
    ForwardingPort.parse (.str p.toDisplay) = .ok p := by
  have hgood : (∀ hh, p.sourcehost = some hh → ':' ∉ hh.toList ∧ ',' ∉ hh.toList) ∧
      (':' ∉ p.destinationhost.toList ∧ ',' ∉ p.destinationhost.toList) := by
    cases x with
    | num n =>
      injection hp with hp
      subst hp
      exact ⟨fun hh hhs => Option.noConfusion hhs,
        (by decide : ':' ∉ ("localhost" : String).toList),
        (by decide : ',' ∉ ("localhost" : String).toList)⟩
    | pair a b =>
      injection hp with hp
      subst hp
      exact ⟨fun hh hhs => Option.noConfusion hhs,
        (by decide : ':' ∉ ("localhost" : String).toList),
        (by decide : ',' ∉ ("localhost" : String).toList)⟩
    | rule q => exact absurd rfl (hx q)
    | str s => exact parseChars_hosts hp
  show parseChars p.toDisplay.toList = .ok p
  have htl : p.toDisplay.toList = p.renderChars := rfl
  rw [htl]
  refine parseChars_renderChars ?_ hgood.2.1 hgood.2.2
  intro hh hhs
  refine ⟨?_, (hgood.1 hh hhs).1, (hgood.1 hh hhs).2⟩
  intro he
  exact hsh (he ▸ hhs)

/-- Witness for C5 at the encoding "a:1:b:2". -/
theorem C5_parse_left_inverse_witness :
    ForwardingPort.parse (.str (ForwardingPort.toDisplay
      { sourceport := 1, destinationport := 2, sourcehost := some "a",
        destinationhost := "b" })) =
      .ok { sourceport := 1, destinationport := 2, sourcehost := some "a",
            destinationhost := "b" } :=
  C5_parse_left_inverse (.str "a:1:b:2") _
    (fun _ h => PortSpec.noConfusion h) (by rfl) (by decide)

/-- Counterexample to C5 as stated: the four-field encoding ":1:b:2" with an
empty SRCHOST parses successfully, but re-parsing its rendering loses the
empty source host, so parse (str (parse x)) differs from parse x. -/
theorem C5_counterexample :
    ForwardingPort.parse (.str ":1:b:2") =
      .ok { sourceport := 1, destinationport := 2, sourcehost := some "",
            destinationhost := "b" } ∧
    ForwardingPort.parse (.str (ForwardingPort.toDisplay
      { sourceport := 1, destinationport := 2, sourcehost := some "",
        destinationhost := "b" })) =
      .ok { sourceport := 1, destinationport := 2, sourcehost := none,
            destinationhost := "b" } ∧
    ({ sourceport := 1, destinationport := 2, sourcehost := some "",
       destinationhost := "b" } : ForwardingPort) ≠
      { sourceport := 1, destinationport := 2, sourcehost := none,
        destinationhost := "b" } :=
  ⟨rfl, rfl, by decide⟩

/-- C6: a string with more than four colon-delimited fields always fails to
parse, and every parse failure is a value error whose payload names (an infix
of) the offending input; a success returns a fully-populated rule by
construction. -/
theorem C6_parse_malformed (s : String) :
    (4 ≤ s.toList.count ':' → ∃ e, ForwardingPort.parse (.str s) = .error e) ∧
    (∀ e, ForwardingPort.parse (.str s) = .error e → e <:+: s.toList) := by
  have hshow : ForwardingPort.parse (.str s) = parseChars s.toList := rfl
  rw [hshow]
  constructor
  · intro h4
    by_cases hcomma : ',' ∈ s.toList
    · rw [parseChars_eq_comma hcomma]
      cases h1 : pyIntChars? (trimChars (s.toList.takeWhile (fun c => c ≠ ','))) with
      | none => exact ⟨_, rfl⟩
      | some a =>
        cases h2 : pyIntChars? (trimChars ((s.toList.dropWhile (fun c => c ≠ ',')).tail)) with
        | none => exact ⟨_, rfl⟩
        | some b =>
          exfalso
          have hdecomp : s.toList = s.toList.takeWhile (fun c => c ≠ ',') ++
              ',' :: (s.toList.dropWhile (fun c => c ≠ ',')).tail := by
            conv_lhs => rw [← List.takeWhile_append_dropWhile (p := fun c => c ≠ ',') (l := s.toList),
              dropWhile_sep_cons hcomma]
          have hc : ':' ∈ s.toList :=
            List.count_pos_iff.mp (show 0 < s.toList.count ':' by omega)
          rw [hdecomp] at hc
          rcases List.mem_append.mp hc with h | h
          · exact colon_not_mem_pyInt h1 (mem_trimChars_of h (by decide))
          · rcases List.mem_cons.mp h with h | h
            · exact absurd h (by decide)
            · exact colon_not_mem_pyInt h2 (mem_trimChars_of h (by decide))
    · have hcolon : ':' ∈ s.toList :=
        List.count_pos_iff.mp (show 0 < s.toList.count ':' by omega)
      obtain ⟨ps, pl, hsplit, hlen, hpmem⟩ :=
        @splitLim_full ':' 3 s.toList (show 3 < s.toList.count ':' by omega)
      obtain ⟨a, b, c, rfl⟩ := List.length_eq_three.mp hlen
      have hsplit' : splitLim ':' 3 s.toList = [a, b, c, pl] := by simpa using hsplit
      rw [parseChars_eq_four hcomma hcolon hsplit']
      cases h1 : pyIntOf b with
      | none => exact ⟨b, rfl⟩
      | some sp =>
        refine ⟨pl, ?_⟩
        rw [pyIntOf_none_of_colon hpmem]
  · intro e he
    by_cases hcomma : ',' ∈ s.toList
    · rw [parseChars_eq_comma hcomma] at he
      cases h1 : pyIntChars? (trimChars (s.toList.takeWhile (fun c => c ≠ ','))) with
      | none =>
        rw [h1] at he
        injection he with he
        subst he
        exact (trimChars_sub _).trans (takeWhile_pre _ _).isInfix
      | some a =>
        rw [h1] at he
        cases h2 : pyIntChars? (trimChars ((s.toList.dropWhile (fun c => c ≠ ',')).tail)) with
        | none =>
          rw [h2] at he
          injection he with he
          subst he
          exact (trimChars_sub _).trans
            (((List.tail_suffix _).trans (List.dropWhile_suffix _)).isInfix)
        | some b =>
          rw [h2] at he
          exact Except.noConfusion he
    · by_cases hcolon : ':' ∈ s.toList
      · have hsub := @splitLim_sub ':' 3 s.toList
        rcases hs : splitLim ':' 3 s.toList with
          _ | ⟨p0, _ | ⟨p1, _ | ⟨p2, _ | ⟨p3, _ | ⟨p4, rest⟩⟩⟩⟩⟩
        · rw [parseChars_eq_nil hcomma hcolon hs] at he
          injection he with he
          subst he
          exact ⟨[], [], by simp⟩
        · rw [parseChars_eq_one hcomma hcolon hs] at he
          injection he with he
          subst he
          exact ⟨[], [], by simp⟩
        · rw [parseChars_eq_two hcomma hcolon hs] at he
          cases h1 : pyIntOf p0 with
          | none =>
            rw [h1] at he
            injection he with he
            subst he
            exact hsub p0 (by rw [hs]; simp)
          | some sp =>
            rw [h1] at he
            cases h2 : pyIntOf p1 with
            | none =>
              rw [h2] at he
              injection he with he
              subst he
              exact hsub p1 (by rw [hs]; simp)
            | some dp =>
              rw [h2] at he
              exact Except.noConfusion he
        · rw [parseChars_eq_three hcomma hcolon hs] at he
          cases h1 : pyIntOf p0 with
          | none =>
            rw [h1] at he
            injection he with he
            subst he
            exact hsub p0 (by rw [hs]; simp)
          | some sp =>
            rw [h1] at he
            cases h2 : pyIntOf p2 with
            | none =>
              rw [h2] at he
              injection he with he
              subst he
              exact hsub p2 (by rw [hs]; simp)
            | some dp =>
              rw [h2] at he
              exact Except.noConfusion he
        · rw [parseChars_eq_four hcomma hcolon hs] at he
          cases h1 : pyIntOf p1 with
          | none =>
            rw [h1] at he
            injection he with he
            subst he
            exact hsub p1 (by rw [hs]; simp)
          | some sp =>
            rw [h1] at he
            cases h2 : pyIntOf p3 with
            | none =>
              rw [h2] at he
              injection he with he
              subst he
              exact hsub p3 (by rw [hs]; simp)
            | some dp =>
              rw [h2] at he
              exact Except.noConfusion he
        · rw [parseChars_eq_many hcomma hcolon hs] at he
          injection he with he
          subst he
          exact ⟨[], [], by simp⟩
      · rw [parseChars_eq_fallback hcomma hcolon] at he
        cases h1 : pyIntChars? (trimChars s.toList) with
        | none =>
          rw [h1] at he
          injection he with he
          subst he
          exact trimChars_sub _
        | some n =>
          rw [h1] at he
          exact Except.noConfusion he

/-- Witness for C6 at "1:2:3:4:5" (five colon-delimited fields). -/
theorem C6_parse_malformed_witness :
    ∃ e, ForwardingPort.parse (.str "1:2:3:4:5") = .error e ∧
      e <:+: "1:2:3:4:5".toList := by
  obtain ⟨e, he⟩ := (C6_parse_malformed "1:2:3:4:5").1 (by decide)
  exact ⟨e, he, (C6_parse_malformed "1:2:3:4:5").2 e he⟩

/-! ## Lemmas: clean_ports -/

theorem pmFind_append {pm : List (Int × Int)} {k v : Int} (q : Int) :
    pmFind (pm ++ [(k, v)]) q =
      match pmFind pm q with
      | some c => some c
      | none => if k = q then some v else none := by
  induction pm with
  | nil => simp [pmFind]
  | cons e rest ih =>
    by_cases he : e.1 = q
    · simp [pmFind, he]
    · simp only [List.cons_append, pmFind, if_neg he]
      exact ih

theorem pmFind_append_of_none {pm : List (Int × Int)} {k v q : Int}
    (h : pmFind pm q = none) :
    pmFind (pm ++ [(k, v)]) q = if k = q then some v else none := by
  rw [pmFind_append, h]

theorem pmFind_append_of_some {pm : List (Int × Int)} {k v q c : Int}
    (h : pmFind pm q = some c) :
    pmFind (pm ++ [(k, v)]) q = some c := by
  rw [pmFind_append, h]

/-- Step equation of the `clean_ports` loop when the local port is found. -/
theorem clean_ports_go_found {pm : List (Int × Int)} {p : ForwardingPort}
    {cur : Int} (rest : List ForwardingPort)
    (hf : pmFind pm p.sourceport = some cur) :
    clean_ports_go pm (p :: rest) =
      if cur = p.destinationport then clean_ports_go pm rest
      else .error { requested := p.sourceport, current := cur } := by
  rw [clean_ports_go, hf]

/-- Step equation of the `clean_ports` loop when the local port is new. -/
theorem clean_ports_go_not_found {pm : List (Int × Int)} {p : ForwardingPort}
    (rest : List ForwardingPort) (hf : pmFind pm p.sourceport = none) :
    clean_ports_go pm (p :: rest) =
      match clean_ports_go (pm ++ [(p.sourceport, p.destinationport)]) rest with
      | .ok l => .ok (p :: l)
      | .error e => .error e := by
  rw [clean_ports_go, hf]

/-- The loop of `clean_ports` succeeds exactly when the remaining rules are
pairwise compatible and each agrees with the accumulated port map. -/
theorem clean_ports_go_ok_iff :
    ∀ (rules : List ForwardingPort) (pm : List (Int × Int)),
      (∃ l, clean_ports_go pm rules = .ok l) ↔
        (rules.Pairwise portCompat ∧ ∀ p ∈ rules, pmAgrees pm p) := by
  intro rules
  induction rules with
  | nil => intro pm; simp [clean_ports_go]
  | cons p rest ih =>
    intro pm
    cases hf : pmFind pm p.sourceport with
    | some cur =>
      rw [clean_ports_go_found rest hf]
      by_cases hcur : cur = p.destinationport
      · rw [if_pos hcur, ih pm]
        constructor
        · rintro ⟨hpw, hag⟩
          refine ⟨List.pairwise_cons.mpr ⟨?_, hpw⟩, ?_⟩
          · intro q hq hsrc
            have hq2 : pmFind pm q.sourceport = some cur := by rw [← hsrc]; exact hf
            rw [hag q hq cur hq2, hcur]
          · intro q hq
            rcases List.mem_cons.mp hq with rfl | hq'
            · intro c hc
              rw [hf] at hc
              injection hc with hc
              rw [← hc, hcur]
            · exact hag q hq'
        · rintro ⟨hpw, hag⟩
          exact ⟨(List.pairwise_cons.mp hpw).2,
            fun q hq => hag q (List.mem_cons_of_mem _ hq)⟩
      · rw [if_neg hcur]
        constructor
        · rintro ⟨l, hl⟩
          exact Except.noConfusion hl
        · rintro ⟨-, hag⟩
          exact absurd (hag p (List.mem_cons_self _ _) cur hf).symm hcur
    | none =>
      rw [clean_ports_go_not_found rest hf]
      constructor
      · rintro ⟨l, hl⟩
        cases hrec : clean_ports_go (pm ++ [(p.sourceport, p.destinationport)]) rest with
        | error e => rw [hrec] at hl; exact Except.noConfusion hl
        | ok l' =>
          obtain ⟨hpw, hag⟩ := (ih _).mp ⟨l', hrec⟩
          refine ⟨List.pairwise_cons.mpr ⟨?_, hpw⟩, ?_⟩
          · intro q hq hsrc
            have hq2 : pmFind (pm ++ [(p.sourceport, p.destinationport)]) q.sourceport =
                some p.destinationport := by
              rw [pmFind_append_of_none (hsrc ▸ hf), if_pos hsrc]
            exact (hag q hq p.destinationport hq2).symm
          · intro q hq
            rcases List.mem_cons.mp hq with rfl | hq'
            · intro c hc
              rw [hf] at hc
              exact Option.noConfusion hc
            · intro c hc
              exact hag q hq' c (pmFind_append_of_some hc)
      · rintro ⟨hpw, hag⟩
        obtain ⟨hcomp, hpw'⟩ := List.pairwise_cons.mp hpw
        have hag' : ∀ q ∈ rest, pmAgrees (pm ++ [(p.sourceport, p.destinationport)]) q := by
          intro q hq c hc
          rw [pmFind_append] at hc
          cases hpm : pmFind pm q.sourceport with
          | some c0 =>
            rw [hpm] at hc
            have hc' : some c0 = some c := hc
            injection hc' with hc'
            exact hag q (List.mem_cons_of_mem _ hq) c (hc' ▸ hpm)
          | none =>
            rw [hpm] at hc
            have hc' : (if p.sourceport = q.sourceport then some p.destinationport
                else none) = some c := hc
            by_cases hkk : p.sourceport = q.sourceport
            · rw [if_pos hkk] at hc'
              injection hc' with hc'
              rw [← hc']
              exact (hcomp q hq hkk).symm
            · rw [if_neg hkk] at hc'
              exact Option.noConfusion hc'
        obtain ⟨l, hl⟩ := (ih _).mpr ⟨hpw', hag'⟩
        exact ⟨p :: l, by rw [hl]⟩

/-- On success the loop of `clean_ports` yields the rules whose source port
was not seen before, in order of first occurrence. -/
theorem clean_ports_go_ok_eq :
    ∀ (rules : List ForwardingPort) (pm : List (Int × Int)) (seen : List Int),
      (∀ k, k ∈ seen ↔ ∃ c, pmFind pm k = some c) →
      ∀ l, clean_ports_go pm rules = .ok l → l = firstBySource seen rules := by
  intro rules
  induction rules with
  | nil =>
    intro pm seen hinv l hl
    injection hl with hl
    rw [← hl]
    rfl
  | cons p rest ih =>
    intro pm seen hinv l hl
    cases hf : pmFind pm p.sourceport with
    | some cur =>
      rw [clean_ports_go_found rest hf] at hl
      by_cases hcur : cur = p.destinationport
      · rw [if_pos hcur] at hl
        have hseen : p.sourceport ∈ seen := (hinv _).mpr ⟨cur, hf⟩
        rw [firstBySource, if_pos hseen]
        exact ih pm seen hinv l hl
      · rw [if_neg hcur] at hl
        exact Except.noConfusion hl
    | none =>
      rw [clean_ports_go_not_found rest hf] at hl
      have hns : p.sourceport ∉ seen := by
        intro hx
        obtain ⟨c, hc⟩ := (hinv _).mp hx
        rw [hf] at hc
        exact Option.noConfusion hc
      rw [firstBySource, if_neg hns]
      cases hrec : clean_ports_go (pm ++ [(p.sourceport, p.destinationport)]) rest with
      | error e => rw [hrec] at hl; exact Except.noConfusion hl
      | ok l' =>
        rw [hrec] at hl
        injection hl with hl
        rw [← hl]
        congr 1
        refine ih _ (p.sourceport :: seen) ?_ l' hrec
        intro k
        constructor
        · intro hk
          rcases List.mem_cons.mp hk with rfl | hk'
          · exact ⟨p.destinationport, by rw [pmFind_append_of_none hf]; simp⟩
          · obtain ⟨c, hc⟩ := (hinv k).mp hk'
            exact ⟨c, pmFind_append_of_some hc⟩
        · rintro ⟨c, hc⟩
          rw [pmFind_append] at hc
          cases hpm : pmFind pm k with
          | some c0 => exact List.mem_cons_of_mem _ ((hinv k).mpr ⟨c0, hpm⟩)
          | none =>
            rw [hpm] at hc
            have hc' : (if p.sourceport = k then some p.destinationport else none) =
                some c := hc
            by_cases hkk : p.sourceport = k
            · exact hkk ▸ List.mem_cons_self _ _
            · rw [if_neg hkk] at hc'
              exact Option.noConfusion hc'

/-- When the loop of `clean_ports` raises, the exception's local port maps to
two different destinations among the rules (or the accumulated map). -/
theorem clean_ports_go_error :
    ∀ (rules : List ForwardingPort) (pm : List (Int × Int)) (e : DuplicateLocalPort),
      clean_ports_go pm rules = .error e →
      (∃ q ∈ rules, q.sourceport = e.requested ∧ q.destinationport ≠ e.current) ∧
      ((∃ p ∈ rules, p.sourceport = e.requested ∧ p.destinationport = e.current) ∨
        pmFind pm e.requested = some e.current) := by
  intro rules
  induction rules with
  | nil => intro pm e h; exact Except.noConfusion h
  | cons p rest ih =>
    intro pm e h
    cases hf : pmFind pm p.sourceport with
    | some cur =>
      rw [clean_ports_go_found rest hf] at h
      by_cases hcur : cur = p.destinationport
      · rw [if_pos hcur] at h
        obtain ⟨h1, h2⟩ := ih pm e h
        obtain ⟨q, hq, hqs⟩ := h1
        refine ⟨⟨q, List.mem_cons_of_mem _ hq, hqs⟩, ?_⟩
        rcases h2 with ⟨r, hr, hrs⟩ | h2
        · exact Or.inl ⟨r, List.mem_cons_of_mem _ hr, hrs⟩
        · exact Or.inr h2
      · rw [if_neg hcur] at h
        injection h with h
        rw [← h]
        refine ⟨⟨p, List.mem_cons_self _ _, rfl, fun hx => hcur hx.symm⟩, Or.inr hf⟩
    | none =>
      rw [clean_ports_go_not_found rest hf] at h
      cases hrec : clean_ports_go (pm ++ [(p.sourceport, p.destinationport)]) rest with
      | ok l => rw [hrec] at h; exact Except.noConfusion h
      | error e' =>
        rw [hrec] at h
        injection h with h
        subst h
        obtain ⟨h1, h2⟩ := ih _ e' hrec
        obtain ⟨q, hq, hqs⟩ := h1
        refine ⟨⟨q, List.mem_cons_of_mem _ hq, hqs⟩, ?_⟩
        rcases h2 with ⟨r, hr, hrs⟩ | h2
        · exact Or.inl ⟨r, List.mem_cons_of_mem _ hr, hrs⟩
        · rw [pmFind_append] at h2
          cases hpm : pmFind pm e'.requested with
          | some c0 =>
            rw [hpm] at h2
            have h2' : some c0 = some e'.current := h2
            injection h2' with h2'
            subst h2'
            exact Or.inr rfl
          | none =>
            rw [hpm] at h2
            have h2' : (if p.sourceport = e'.requested then some p.destinationport
                else none) = some e'.current := h2
            by_cases hkk : p.sourceport = e'.requested
            · rw [if_pos hkk] at h2'
              injection h2' with h2'
              exact Or.inl ⟨p, List.mem_cons_self _ _, hkk, h2'⟩
            · rw [if_neg hkk] at h2'
              exact Option.noConfusion h2'

/-- C4 (amended): deduplication walks the list once; it raises the
duplicate-local-port error exactly when two rules map the same source port to
different destination ports (in either order of appearance), the error
carrying the duplicated local port and the already-assigned destination; it
silently skips a rule whose (source port, destination port) pair was already
seen; and otherwise yields the rules in order of first occurrence of their
source port. -/
theorem C4_clean_ports (rules : List ForwardingPort) :
    ((∃ l, clean_ports rules = .ok l) ↔ rules.Pairwise portCompat) ∧
    (∀ l, clean_ports rules = .ok l → l = firstBySource [] rules) ∧
    (∀ e, clean_ports rules = .error e →
      (∃ p ∈ rules, p.sourceport = e.requested ∧ p.destinationport = e.current) ∧
      (∃ q ∈ rules, q.sourceport = e.requested ∧ q.destinationport ≠ e.current)) := by
  refine ⟨?_, ?_, ?_⟩
  · constructor
    · intro h
      exact ((clean_ports_go_ok_iff rules []).mp h).1
    · intro h
      exact (clean_ports_go_ok_iff rules []).mpr
        ⟨h, fun p hp c hc => Option.noConfusion hc⟩
  · intro l hl
    refine clean_ports_go_ok_eq rules [] [] ?_ l hl
    intro k
    constructor
    · intro hk
      exact absurd hk (List.not_mem_nil k)
    · rintro ⟨c, hc⟩
      exact Option.noConfusion hc
  · intro e he
    obtain ⟨h1, h2⟩ := clean_ports_go_error rules [] e he
    refine ⟨?_, h1⟩
    rcases h2 with h2 | h2
    · exact h2
    · exact Option.noConfusion h2

/-- Witness for C4 on a list with one exact port-pair repeat and no
conflict. -/
theorem C4_clean_ports_witness :
    ([{ sourceport := 10, destinationport := 20 },
      { sourceport := 10, destinationport := 20 },
      { sourceport := 11, destinationport := 20, destinationhost := "x" }] :
        List ForwardingPort).Pairwise portCompat ∧
    clean_ports [{ sourceport := 10, destinationport := 20 },
      { sourceport := 10, destinationport := 20 },
      { sourceport := 11, destinationport := 20, destinationhost := "x" }] =
      .ok (firstBySource []
        [{ sourceport := 10, destinationport := 20 },
         { sourceport := 10, destinationport := 20 },
         { sourceport := 11, destinationport := 20, destinationhost := "x" }]) := by
  have hpw : ([{ sourceport := 10, destinationport := 20 },
      { sourceport := 10, destinationport := 20 },
      { sourceport := 11, destinationport := 20, destinationhost := "x" }] :
        List ForwardingPort).Pairwise portCompat := by
    simp only [List.pairwise_cons, List.mem_cons, List.mem_singleton]
    refine ⟨?_, ?_, by simp [portCompat]⟩ <;> intro q hq <;> rcases hq with rfl | rfl | hq <;>
      simp_all [portCompat]
  refine ⟨hpw, ?_⟩
  obtain ⟨l, hl⟩ := (C4_clean_ports _).1.mpr hpw
  have heq := (C4_clean_ports _).2.1 l hl
  rw [hl, heq]

/-- Counterexample to C4 as stated: for rules (10 maps to 20) then (10 maps
to 30) the raised error carries the local port 10 and the already-assigned
destination 20; it does not carry the requested destination 30. -/
theorem C4_counterexample :
    clean_ports [{ sourceport := 10, destinationport := 20 },
      { sourceport := 10, destinationport := 30 }] =
      .error { requested := 10, current := 20 } ∧
    ({ requested := 10, current := 20 } : DuplicateLocalPort).requested ≠ 30 :=
  ⟨rfl, by decide⟩

/-! ## Lemmas: the line classifier -/

theorem sub_dropWhile {p : Char → Bool} {M cs : List Char} (hM : M <:+: cs)
    (hh : ∀ c, M.head? = some c → p c = false) : M <:+: cs.dropWhile p := by
  cases M with
  | nil => exact ⟨[], cs.dropWhile p, by simp⟩
  | cons m M' =>
    obtain ⟨a, b, hab⟩ := hM
    have hm : p m = false := hh m rfl
    rw [← hab, List.append_assoc, List.dropWhile_append]
    split
    · rw [List.cons_append, List.dropWhile_cons_of_neg (by simp [hm])]
      exact ⟨[], b, by simp⟩
    · exact ⟨a.dropWhile p, b, by simp⟩

theorem sub_trimChars {M cs : List Char} (hM : M <:+: cs)
    (hh : ∀ c, M.head? = some c → pySpace c = false)
    (hl : ∀ c, M.getLast? = some c → pySpace c = false) : M <:+: trimChars cs := by
  have h1 : M <:+: cs.dropWhile pySpace := sub_dropWhile hM hh
  have h3 : M.reverse <:+: ((cs.dropWhile pySpace).reverse).dropWhile pySpace := by
    refine sub_dropWhile h1.reverse ?_
    intro c hc
    rw [List.head?_reverse] at hc
    exact hl c hc
  have h4 := h3.reverse
  rw [List.reverse_reverse] at h4
  exact h4

theorem sub_drop_of_head {pre M rest : List Char}
    (hh : ∀ c, M.head? = some c → c ∉ pre)
    (hM : M <:+: pre ++ rest) : M <:+: rest := by
  cases M with
  | nil => exact ⟨[], rest, by simp⟩
  | cons m M' =>
    obtain ⟨a, b, hab⟩ := hM
    have hm : m ∉ pre := hh m rfl
    by_cases hlen : a.length < pre.length
    · exfalso
      have hg : (a ++ (m :: M') ++ b).get? a.length = some m := by
        rw [List.append_assoc, List.get?_append_right (le_refl a.length), Nat.sub_self]
        rfl
      rw [hab] at hg
      rw [List.get?_append hlen] at hg
      exact hm (List.get?_mem hg)
    · push_neg at hlen
      have h1 : a <+: pre ++ rest := ⟨(m :: M') ++ b, by rw [← hab]; simp [List.append_assoc]⟩
      have h2 : pre <+: pre ++ rest := ⟨rest, rfl⟩
      obtain ⟨a', ha'⟩ := List.prefix_of_prefix_length_le h2 h1 hlen
      rw [← ha', List.append_assoc, List.append_assoc] at hab
      have hab' := List.append_cancel_left hab
      exact ⟨a', b, by rw [List.append_assoc]; exact hab'⟩

/-- For a marker whose first character does not occur in the debug prefix and
whose ends are not whitespace, occurrence in a debug-prefixed line is
occurrence in the stripped line. -/
theorem marker_in_strip {line M : List Char}
    (hpfx : "debug1:".toList <+: line)
    (hhead : ∀ c, M.head? = some c → c ∉ "debug1:".toList ∧ pySpace c = false)
    (hlast : ∀ c, M.getLast? = some c → pySpace c = false) :
    (M <:+: line ↔ M <:+: trimChars (line.drop 7)) := by
  obtain ⟨rest, hrest⟩ := hpfx
  have hdrop : line.drop 7 = rest := by
    rw [← hrest]
    have hlen : ("debug1:".toList).length = 7 := rfl
    rw [← hlen]
    exact List.drop_left _ _
  constructor
  · intro hM
    rw [hdrop]
    refine sub_trimChars ?_ (fun c hc => (hhead c hc).2) hlast
    refine sub_drop_of_head (fun c hc => (hhead c hc).1) ?_
    rw [hrest]
    exact hM
  · intro hM
    have h1 : M <:+: line.drop 7 := hM.trans (trimChars_sub _)
    exact h1.trans (List.drop_suffix _ _).isInfix

theorem marker_facts_connected :
    (∀ c, ("Entering interactive session".toList).head? = some c →
      c ∉ "debug1:".toList ∧ pySpace c = false) ∧
    (∀ c, ("Entering interactive session".toList).getLast? = some c →
      pySpace c = false) := by
  constructor
  · intro c hc
    have h0 : ("Entering interactive session".toList).head? = some 'E' := rfl
    rw [h0] at hc
    injection hc with hc
    subst hc
    exact ⟨by decide, by decide⟩
  · intro c hc
    have h0 : ("Entering interactive session".toList).getLast? = some 'n' := by decide
    rw [h0] at hc
    injection hc with hc
    subst hc
    decide

theorem marker_facts_disconnected :
    (∀ c, ("not responding".toList).head? = some c →
      c ∉ "debug1:".toList ∧ pySpace c = false) ∧
    (∀ c, ("not responding".toList).getLast? = some c → pySpace c = false) := by
  constructor
  · intro c hc
    have h0 : ("not responding".toList).head? = some 'n' := rfl
    rw [h0] at hc
    injection hc with hc
    subst hc
    exact ⟨by decide, by decide⟩
  · intro c hc
    have h0 : ("not responding".toList).getLast? = some 'g' := by decide
    rw [h0] at hc
    injection hc with hc
    subst hc
    decide

/-- C2 (amended): a line containing "not responding" yields DISCONNECTED (the
disconnect check runs last and overrides); a line containing "Entering
interactive session" and not "not responding" yields CONNECTED; every other
line yields CONTINUE; and a "debug1:"-prefixed line is logged at debug level
with the prefix stripped (and whitespace trimmed), every other line at info
level unchanged. -/
theorem C2_handle_ssh_line (line : String) :
    (containsSub line "not responding" = true →
      (handle_ssh_line line).action = .DISCONNECTED) ∧
    (containsSub line "Entering interactive session" = true →
      containsSub line "not responding" = false →
      (handle_ssh_line line).action = .CONNECTED) ∧
    (containsSub line "Entering interactive session" = false →
      containsSub line "not responding" = false →
      (handle_ssh_line line).action = .CONTINUE) ∧
    ("debug1:".toList.isPrefixOf line.toList = true →
      (handle_ssh_line line).logged = String.mk (trimChars (line.toList.drop 7)) ∧
      (handle_ssh_line line).debugLevel = true) ∧
    ("debug1:".toList.isPrefixOf line.toList = false →
      (handle_ssh_line line).logged = line ∧
      (handle_ssh_line line).debugLevel = false) := by
  by_cases hdbg : "debug1:".toList.isPrefixOf line.toList = true
  · have hpfx : "debug1:".toList <+: line.toList := by
      rw [← List.isPrefixOf_iff_prefix]
      exact hdbg
    have hiff1 := marker_in_strip (M := "not responding".toList) hpfx
      marker_facts_disconnected.1 marker_facts_disconnected.2
    have hiff2 := marker_in_strip (M := "Entering interactive session".toList) hpfx
      marker_facts_connected.1 marker_facts_connected.2
    have hred : handle_ssh_line line =
        { action :=
            if containsSub (String.mk (trimChars (line.toList.drop 7))) "not responding"
            then Action.DISCONNECTED
            else if containsSub (String.mk (trimChars (line.toList.drop 7)))
                "Entering interactive session"
            then Action.CONNECTED else Action.CONTINUE,
          logged := String.mk (trimChars (line.toList.drop 7)),
          debugLevel := true } := by
      rw [handle_ssh_line]
      simp only [hdbg, if_true, if_pos]
    have hc1 : containsSub (String.mk (trimChars (line.toList.drop 7))) "not responding" =
        containsSub line "not responding" := by
      rw [containsSub, containsSub, decide_eq_decide]
      by_cases hx : "not responding".toList <:+: line.toList
      · exact iff_of_true (hiff1.mp hx) hx
      · exact iff_of_false (fun hy => hx (hiff1.mpr hy)) hx
    have hc2 : containsSub (String.mk (trimChars (line.toList.drop 7)))
        "Entering interactive session" = containsSub line "Entering interactive session" := by
      rw [containsSub, containsSub, decide_eq_decide]
      by_cases hx : "Entering interactive session".toList <:+: line.toList
      · exact iff_of_true (hiff2.mp hx) hx
      · exact iff_of_false (fun hy => hx (hiff2.mpr hy)) hx
    refine ⟨?_, ?_, ?_, ?_, ?_⟩
    · intro h1
      rw [hred]
      show (if _ then _ else _) = _
      rw [hc1, h1]
      simp
    · intro h1 h2
      rw [hred]
      show (if _ then _ else _) = _
      rw [hc1, hc2, h1, h2]
      simp
    · intro h1 h2
      rw [hred]
      show (if _ then _ else _) = _
      rw [hc1, hc2, h1, h2]
      simp
    · intro h1
      rw [hred]
      exact ⟨rfl, rfl⟩
    · intro h1
      rw [hdbg] at h1
      exact Bool.noConfusion h1
  · have hdbg' : "debug1:".toList.isPrefixOf line.toList = false := by
      cases hb : "debug1:".toList.isPrefixOf line.toList
      · rfl
      · exact absurd hb hdbg
    have hred : handle_ssh_line line =
        { action :=
            if containsSub line "not responding" then Action.DISCONNECTED
            else if containsSub line "Entering interactive session" then Action.CONNECTED
            else Action.CONTINUE,
          logged := line, debugLevel := false } := by
      rw [handle_ssh_line]
      simp only [hdbg', Bool.false_eq_true, if_false]
    refine ⟨?_, ?_, ?_, ?_, ?_⟩
    · intro h1
      rw [hred]
      show (if _ then _ else _) = _
      rw [h1]
      simp
    · intro h1 h2
      rw [hred]
      show (if _ then _ else _) = _
      rw [h1, h2]
      simp
    · intro h1 h2
      rw [hred]
      show (if _ then _ else _) = _
      rw [h1, h2]
      simp
    · intro h1
      rw [h1] at hdbg'
      exact Bool.noConfusion hdbg'
    · intro h1
      rw [hred]
      exact ⟨rfl, rfl⟩

/-- Witness for C2 on a debug-prefixed connect line. -/
theorem C2_handle_ssh_line_witness :
    (handle_ssh_line "debug1: Entering interactive session.").action = .CONNECTED ∧
    (handle_ssh_line "debug1: Entering interactive session.").logged =
      "Entering interactive session." := by
  constructor
  · exact (C2_handle_ssh_line "debug1: Entering interactive session.").2.1 (by rfl) (by rfl)
  · have h := ((C2_handle_ssh_line "debug1: Entering interactive session.").2.2.2.1) (by rfl)
    rw [h.1]
    rfl

/-- Counterexample to C2 as stated: a line containing both markers contains
"Entering interactive session" yet is classified DISCONNECTED, not
CONNECTED. -/
theorem C2_counterexample :
    containsSub "Entering interactive session - host not responding"
      "Entering interactive session" = true ∧
    (handle_ssh_line "Entering interactive session - host not responding").action =
      .DISCONNECTED ∧
    Action.DISCONNECTED ≠ Action.CONNECTED :=
  ⟨by rfl, by rfl, by decide⟩

/-! ## Backoff -/

/-- C3: when an attempt's elapsed duration is below the current threshold the
supervisor sleeps for the difference and the threshold becomes
min(2 * threshold, 2.0); otherwise no sleep happens and the threshold resets
to 0.1. -/
theorem C3_backoff (st : ContinuousState) (d : ℚ) (hmax : st.max_backoff_time = 2) :
    (d < st.backoff_time →
      backoff_update st d = (st.backoff_time - d,
        { backoff_time := min (2 * st.backoff_time) 2, max_backoff_time := 2 })) ∧
    (st.backoff_time ≤ d →
      backoff_update st d = (0, { backoff_time := 1/10, max_backoff_time := 2 })) := by
  constructor
  · intro h
    rw [backoff_update, if_pos h, hmax]
  · intro h
    rw [backoff_update, if_neg (not_lt.mpr h), hmax]

/-- Witness for C3 at threshold 2 with a fast attempt (duration 0) and a slow
attempt (duration 3). -/
theorem C3_backoff_witness :
    backoff_update { backoff_time := 2, max_backoff_time := 2 } 0 =
      ((2 : ℚ) - 0, { backoff_time := min (2 * 2) 2, max_backoff_time := 2 }) ∧
    backoff_update { backoff_time := 2, max_backoff_time := 2 } 3 =
      (0, { backoff_time := 1/10, max_backoff_time := 2 }) :=
  ⟨(C3_backoff { backoff_time := 2, max_backoff_time := 2 } 0 rfl).1 (by decide),
    (C3_backoff { backoff_time := 2, max_backoff_time := 2 } 3 rfl).2 (by decide)⟩

/-! ## Lemmas: the options dict -/

theorem dictFind_dictSet_self (m : OptionsDict) (k : String) (v : OptVal) :
    dictFind (dictSet m k v) k = some v := by
  induction m with
  | nil => simp [dictFind, dictSet]
  | cons e rest ih =>
    by_cases he : e.1 = k
    · simp [dictSet, he, dictFind]
    · simp [dictSet, he, dictFind, ih]

theorem dictFind_dictSet_other (m : OptionsDict) (k k' : String) (v : OptVal)
    (h : k' ≠ k) : dictFind (dictSet m k v) k' = dictFind m k' := by
  induction m with
  | nil =>
    simp only [dictSet, dictFind]
    rw [if_neg (fun hx => h hx.symm)]
  | cons e rest ih =>
    by_cases he : e.1 = k
    · rw [dictSet, if_pos he, dictFind, dictFind, he, if_neg (fun hx => h hx.symm),
        if_neg (fun hx => h hx.symm)]
    · rw [dictSet, if_neg he, dictFind, dictFind]
      by_cases he' : e.1 = k'
      · rw [if_pos he', if_pos he']
      · rw [if_neg he', if_neg he', ih]

/-- C7: assigning a string that is incompatible with the descriptor's
declared type (for int: not parseable as an integer; for bool and str no
string is incompatible, the conversions being total) raises a value error
and leaves the configuration's option map unchanged. -/
theorem C7_descriptor_set (name : String) (ty : OptTy) (m : OptionsDict) (s : String)
    (h : incompatibleString ty s) :
    (∃ e, descriptorSet name ty m s = .error e) ∧
    descriptorSetRecover name ty m s = m := by
  cases ty with
  | tint =>
    have h' : pyIntOf s.toList = none := h
    constructor
    · refine ⟨"invalid literal for int with base 10: " ++ s, ?_⟩
      rw [descriptorSet, h']
    · rw [descriptorSetRecover, descriptorSet, h']
  | tbool => exact h.elim
  | tstr => exact h.elim

/-- Witness for C7: assigning "abc" to the int-typed ConnectTimeout option. -/
theorem C7_descriptor_set_witness :
    (∃ e, descriptorSet "ConnectTimeout" .tint [("a", .vint 1)] "abc" = .error e) ∧
    descriptorSetRecover "ConnectTimeout" .tint [("a", .vint 1)] "abc" =
      [("a", .vint 1)] :=
  C7_descriptor_set "ConnectTimeout" .tint [("a", .vint 1)] "abc"
    (by decide : pyIntOf ("abc" : String).toList = none)

/-- C10: the option map lowercases keys on item get, item set, get-with-
default and setdefault, so any casing variant of a stored key reads the
stored value; but the bulk update used by the constructor's options
parameter stores keys verbatim, so a mixed-case key supplied there is missed
by the lowercasing descriptor lookups. -/
theorem C10_options_case (m : OptionsDict) (k k' : String) (v d : OptVal)
    (hk : strLower k' = strLower k) :
    (SSHOptions.getItem (SSHOptions.setItem m k v) k' = some v) ∧
    (SSHOptions.getD (SSHOptions.setItem m k v) k' d = v) ∧
    (SSHOptions.setdefault (SSHOptions.setItem m k v) k' d =
      (v, SSHOptions.setItem m k v)) ∧
    (SSHOptions.update m [(k, v)] = dictSet m k v) ∧
    (strLower k ≠ k → dictFind m (strLower k) = none →
      SSHOptions.getItem (SSHOptions.update m [(k, v)]) k = none) := by
  have hget : SSHOptions.getItem (SSHOptions.setItem m k v) k' = some v := by
    rw [SSHOptions.getItem, SSHOptions.setItem, hk, dictFind_dictSet_self]
  refine ⟨hget, ?_, ?_, rfl, ?_⟩
  · rw [SSHOptions.getD, SSHOptions.setItem, hk, dictFind_dictSet_self]
    rfl
  · rw [SSHOptions.setdefault, SSHOptions.setItem, hk, dictFind_dictSet_self]
  · intro hlow hnone
    rw [SSHOptions.getItem]
    have hupd : SSHOptions.update m [(k, v)] = dictSet m k v := rfl
    rw [hupd, dictFind_dictSet_other m k (strLower k) v hlow, hnone]

/-- Witness for C10 with the mixed-case key "Verbose". -/
theorem C10_options_case_witness :
    (SSHOptions.getItem (SSHOptions.setItem [] "Verbose" (.vbool true)) "VERBOSE" =
      some (.vbool true)) ∧
    (SSHOptions.getD (SSHOptions.setItem [] "Verbose" (.vbool true)) "VERBOSE" .vnone =
      .vbool true) ∧
    (SSHOptions.getItem (SSHOptions.update [] [("Verbose", .vbool true)]) "Verbose" =
      none) := by
  have h := C10_options_case [] "Verbose" "VERBOSE" (.vbool true) .vnone (by decide)
  exact ⟨h.1, h.2.1, h.2.2.2.2 (by decide) rfl⟩

/-! ## Lemmas: argument-vector rendering -/

theorem renderOptions_cons_ok {m : OptionsDict} {heap : Heap} {d : Descriptor}
    {ds : List Descriptor} {acc a : List String}
    (h : Descriptor.argumentsOf d m heap = .ok a) :
    renderOptions m heap (d :: ds) acc = renderOptions m heap ds (acc ++ a) := by
  rw [renderOptions, h]

theorem renderOptions_cons_err {m : OptionsDict} {heap : Heap} {d : Descriptor}
    {ds : List Descriptor} {acc : List String} {e : String}
    (h : Descriptor.argumentsOf d m heap = .error e) :
    renderOptions m heap (d :: ds) acc = .error e := by
  rw [renderOptions, h]

theorem renderOptions_mono {m : OptionsDict} {heap : Heap} :
    ∀ (ds : List Descriptor) (acc out : List String),
      renderOptions m heap ds acc = .ok out → ∃ t, out = acc ++ t := by
  intro ds
  induction ds with
  | nil =>
    intro acc out h
    injection h with h
    exact ⟨[], by rw [← h, List.append_nil]⟩
  | cons d rest ih =>
    intro acc out h
    cases hd : Descriptor.argumentsOf d m heap with
    | error e =>
      rw [renderOptions_cons_err hd] at h
      exact Except.noConfusion h
    | ok a =>
      rw [renderOptions_cons_ok hd] at h
      obtain ⟨t, ht⟩ := ih _ _ h
      exact ⟨a ++ t, by rw [ht, List.append_assoc]⟩

theorem renderOptions_of_chunks {m : OptionsDict} {heap : Heap}
    {ds : List Descriptor} {chunks : List (List String)}
    (h : List.Forall₂ (fun d ch => Descriptor.argumentsOf d m heap = .ok ch) ds chunks) :
    ∀ acc, renderOptions m heap ds acc = .ok (acc ++ chunks.flatten) := by
  induction h with
  | nil =>
    intro acc
    rw [renderOptions]
    simp
  | cons hd hrest ih =>
    intro acc
    rw [renderOptions_cons_ok hd, ih]
    simp

theorem arguments_eq_ok {cfg : SSHConfiguration} {heap : Heap} {b : Bool}
    {toks hostL argsL : List String}
    (h1 : renderOptions cfg.options heap sshRegistry ["ssh"] = .ok toks)
    (h2 : Heap.readStrs heap cfg.host = some hostL)
    (h3 : Heap.readStrs heap cfg.args = some argsL) :
    SSHConfiguration.arguments cfg heap b =
      .ok (toks ++ hostL ++ (if b then argsL else [])) := by
  rw [SSHConfiguration.arguments, h1, h2, h3]

theorem arguments_congr {c1 c2 : SSHConfiguration} {h : Heap}
    (ho : c1.options = c2.options)
    (hh : Heap.readStrs h c1.host = Heap.readStrs h c2.host)
    (ha : Heap.readStrs h c1.args = Heap.readStrs h c2.args) (b : Bool) :
    SSHConfiguration.arguments c1 h b = SSHConfiguration.arguments c2 h b := by
  rw [SSHConfiguration.arguments, SSHConfiguration.arguments, ho, hh, ha]

theorem heap_read_append_self (h : Heap) (c : Cell) :
    Heap.read (h ++ [c]) h.length = some c := by
  rw [Heap.read, List.get?_append_right (le_refl _), Nat.sub_self]
  rfl

theorem heap_read_append_lt (h : Heap) (c : Cell) {r : Nat} (hr : r < h.length) :
    Heap.read (h ++ [c]) r = Heap.read h r := by
  rw [Heap.read, Heap.read, List.get?_append hr]

theorem heap_read_lt_of_readStrs {h : Heap} {r : Nat} {l : List String}
    (hr : Heap.readStrs h r = some l) : r < h.length := by
  by_contra hge
  push_neg at hge
  rw [Heap.readStrs, Heap.read, List.get?_eq_none.mpr hge] at hr
  exact Option.noConfusion hr

theorem readStrs_append {h : Heap} {r : Nat} {l : List String} (c : Cell)
    (hr : Heap.readStrs h r = some l) : Heap.readStrs (h ++ [c]) r = some l := by
  rw [Heap.readStrs, heap_read_append_lt h c (heap_read_lt_of_readStrs hr)]
  exact hr

theorem readStrs_append_self (h : Heap) (xs : List String) :
    Heap.readStrs (h ++ [Cell.strs xs]) h.length = some xs := by
  rw [Heap.readStrs, heap_read_append_self]

theorem argumentsOf_empty (d : Descriptor) (heap : Heap) :
    Descriptor.argumentsOf d [] heap = .ok [] := by
  cases d <;> rfl

theorem renderOptions_empty (heap : Heap) :
    ∀ (ds : List Descriptor) (acc : List String),
      renderOptions [] heap ds acc = .ok acc := by
  intro ds
  induction ds with
  | nil => intro acc; rfl
  | cons d rest ih =>
    intro acc
    rw [renderOptions_cons_ok (argumentsOf_empty d heap), List.append_nil, ih]

theorem init_empty (heap : Heap) :
    SSHConfiguration.init heap none none none =
      ({ options := [], host := heap.length, args := heap.length + 1 },
        (heap ++ [Cell.strs []]) ++ [Cell.strs []]) := by
  simp [SSHConfiguration.init, listOrNew, Heap.alloc]

/-- C1: for every configuration whose descriptors all render (their chunks
listed by a pointwise relation with the registry) the rendered argument
vector is the program name, then each descriptor's tokens in registration
order, then the host tokens, then the trailing arguments; in particular a
freshly-constructed empty configuration renders exactly \["ssh"\]. -/
theorem C1_arguments :
    (∀ (cfg : SSHConfiguration) (heap : Heap) (chunks : List (List String))
        (hostL argsL : List String),
      List.Forall₂ (fun d ch => Descriptor.argumentsOf d cfg.options heap = .ok ch)
        sshRegistry chunks →
      Heap.readStrs heap cfg.host = some hostL →
      Heap.readStrs heap cfg.args = some argsL →
      SSHConfiguration.arguments cfg heap true =
        .ok ("ssh" :: chunks.flatten ++ hostL ++ argsL)) ∧
    (∀ heap : Heap,
      SSHConfiguration.arguments (SSHConfiguration.init heap none none none).1
        (SSHConfiguration.init heap none none none).2 true = .ok ["ssh"]) := by
  constructor
  · intro cfg heap chunks hostL argsL hf hh ha
    have h1 := renderOptions_of_chunks hf ["ssh"]
    rw [arguments_eq_ok h1 hh ha]
    simp
  · intro heap
    rw [init_empty]
    have h1 := renderOptions_empty ((heap ++ [Cell.strs []]) ++ [Cell.strs []])
      sshRegistry ["ssh"]
    have hh : Heap.readStrs ((heap ++ [Cell.strs []]) ++ [Cell.strs []]) heap.length =
        some [] := readStrs_append _ (readStrs_append_self heap [])
    have ha : Heap.readStrs ((heap ++ [Cell.strs []]) ++ [Cell.strs []])
        (heap.length + 1) = some [] := by
      have h2 := readStrs_append_self (heap ++ [Cell.strs []]) []
      simpa using h2
    rw [arguments_eq_ok h1 hh ha]
    simp

/-- Witness for C1 on a configuration with verbose set and host "h". -/
theorem C1_arguments_witness :
    SSHConfiguration.arguments
      { options := [("verbose", .vbool true)], host := 0, args := 1 }
      [Cell.strs ["h"], Cell.strs []] true = .ok ["ssh", "-v", "h"] := by
  have hf : List.Forall₂
      (fun d ch => Descriptor.argumentsOf d
        ([("verbose", OptVal.vbool true)] : OptionsDict) [Cell.strs ["h"], Cell.strs []] =
          .ok ch)
      sshRegistry [[], ["-v"], [], [], [], [], [], [], []] :=
    .cons rfl (.cons rfl (.cons rfl (.cons rfl (.cons rfl (.cons rfl (.cons rfl
      (.cons rfl (.cons rfl .nil))))))))
  have h := C1_arguments.1 { options := [("verbose", .vbool true)], host := 0, args := 1 }
    [Cell.strs ["h"], Cell.strs []] [[], ["-v"], [], [], [], [], [], [], []]
    ["h"] [] hf rfl rfl
  simpa using h

theorem flagArguments_eq {m : OptionsDict} {name : String} {b : Bool} (tok : String)
    (h : SSHOptions.getItem m name = some (.vbool b)) :
    flagArguments name tok m = .ok (if b then [tok] else []) := by
  rw [flagArguments, h]

/-- C9: constructing the continuous-SSH supervisor sets the given
configuration's verbose flag to true, leaves every other option key and the
host and argument lists unchanged, and every argument vector subsequently
rendered from that configuration contains the "-v" token. -/
theorem C9_continuous_init (cfg : SSHConfiguration) :
    ((ContinuousSSH.init cfg).config.options =
      SSHOptions.setItem cfg.options "verbose" (.vbool true)) ∧
    ((ContinuousSSH.init cfg).config.host = cfg.host) ∧
    ((ContinuousSSH.init cfg).config.args = cfg.args) ∧
    (∀ k, strLower k ≠ "verbose" →
      SSHOptions.getItem (ContinuousSSH.init cfg).config.options k =
        SSHOptions.getItem cfg.options k) ∧
    (∀ (heap : Heap) (b : Bool) (out : List String),
      SSHConfiguration.arguments (ContinuousSSH.init cfg).config heap b = .ok out →
      "-v" ∈ out) := by
  refine ⟨rfl, rfl, rfl, ?_, ?_⟩
  · intro k hk
    have h0 : strLower "verbose" = "verbose" := rfl
    rw [← h0] at hk
    show dictFind (SSHOptions.setItem cfg.options "verbose" (.vbool true)) (strLower k) =
      SSHOptions.getItem cfg.options k
    rw [SSHOptions.setItem, dictFind_dictSet_other _ _ _ _ hk]
    rfl
  · intro heap b out h
    have hopt : (ContinuousSSH.init cfg).config.options =
        SSHOptions.setItem cfg.options "verbose" (.vbool true) := rfl
    rw [SSHConfiguration.arguments, hopt] at h
    cases hr : renderOptions (SSHOptions.setItem cfg.options "verbose" (.vbool true))
        heap sshRegistry ["ssh"] with
    | error e =>
      rw [hr] at h
      exact Except.noConfusion h
    | ok toks =>
      rw [hr] at h
      have hvmem : "-v" ∈ toks := by
        rw [sshRegistry] at hr
        cases h1 : Descriptor.argumentsOf (.flag "no_remote_command" "-N")
            (SSHOptions.setItem cfg.options "verbose" (.vbool true)) heap with
        | error e =>
          rw [renderOptions_cons_err h1] at hr
          exact Except.noConfusion hr
        | ok a1 =>
          rw [renderOptions_cons_ok h1] at hr
          have hv : SSHOptions.getItem
              (SSHOptions.setItem cfg.options "verbose" (.vbool true)) "verbose" =
              some (.vbool true) := by
            rw [SSHOptions.getItem, SSHOptions.setItem]
            exact dictFind_dictSet_self _ _ _
          have h2 : Descriptor.argumentsOf (.flag "verbose" "-v")
              (SSHOptions.setItem cfg.options "verbose" (.vbool true)) heap =
              .ok ["-v"] := by
            show flagArguments "verbose" "-v"
              (SSHOptions.setItem cfg.options "verbose" (.vbool true)) = .ok ["-v"]
            rw [flagArguments_eq "-v" hv]
            rfl
          rw [renderOptions_cons_ok h2] at hr
          obtain ⟨t, ht⟩ := renderOptions_mono _ _ _ hr
          rw [ht]
          simp
      cases hh1 : Heap.readStrs heap (ContinuousSSH.init cfg).config.host with
      | none =>
        rw [hh1] at h
        exact Except.noConfusion h
      | some hostL =>
        rw [hh1] at h
        cases hh2 : Heap.readStrs heap (ContinuousSSH.init cfg).config.args with
        | none =>
          rw [hh2] at h
          exact Except.noConfusion h
        | some argsL =>
          rw [hh2] at h
          injection h with h
          rw [← h]
          exact List.mem_append_left _ (List.mem_append_left _ hvmem)

/-- Witness for C9 on an empty configuration and a heap with empty host and
argument lists. -/
theorem C9_continuous_init_witness :
    "-v" ∈ ["ssh", "-v"] ∧
    SSHConfiguration.arguments
      (ContinuousSSH.init { options := [], host := 0, args := 1 }).config
      [Cell.strs [], Cell.strs []] true = .ok ["ssh", "-v"] := by
  refine ⟨?_, by rfl⟩
  exact (C9_continuous_init { options := [], host := 0, args := 1 }).2.2.2.2
    [Cell.strs [], Cell.strs []] true ["ssh", "-v"] (by rfl)

/-! ## Lemmas: copying a configuration -/

theorem dictSet_append_new {m : OptionsDict} {k : String} {v : OptVal}
    (h : k ∉ m.map (fun e => e.1)) : dictSet m k v = m ++ [(k, v)] := by
  induction m with
  | nil => rfl
  | cons e rest ih =>
    have hne : ¬e.1 = k := by
      intro he
      exact h (by rw [List.map_cons]; exact he ▸ List.mem_cons_self _ _)
    rw [dictSet, if_neg hne, List.cons_append,
      ih (fun hx => h (by rw [List.map_cons]; exact List.mem_cons_of_mem _ hx))]

theorem update_append :
    ∀ (m acc : OptionsDict), (m.map (fun e => e.1)).Nodup →
      (∀ e ∈ m, e.1 ∉ acc.map (fun e => e.1)) →
      SSHOptions.update acc m = acc ++ m := by
  intro m
  induction m with
  | nil =>
    intro acc _ _
    simp [SSHOptions.update]
  | cons e rest ih =>
    intro acc hnodup hdisj
    have hk : e.1 ∉ acc.map (fun e => e.1) := hdisj e (List.mem_cons_self _ _)
    have hnodup' : (e.1 :: rest.map (fun e => e.1)).Nodup := by
      rw [List.map_cons] at hnodup
      exact hnodup
    obtain ⟨hhead, htail⟩ := List.nodup_cons.mp hnodup'
    have hstep : SSHOptions.update acc (e :: rest) =
        SSHOptions.update (dictSet acc e.1 e.2) rest := by
      rw [SSHOptions.update, SSHOptions.update, List.foldl_cons]
    have hdisj' : ∀ e' ∈ rest, e'.1 ∉ (acc ++ [(e.1, e.2)]).map (fun e => e.1) := by
      intro e' he' hx
      rw [List.map_append] at hx
      rcases List.mem_append.mp hx with hx | hx
      · exact hdisj e' (List.mem_cons_of_mem _ he') hx
      · simp only [List.map_cons, List.map_nil, List.mem_singleton] at hx
        exact hhead (hx ▸ List.mem_map_of_mem _ he')
    rw [hstep, dictSet_append_new hk, ih (acc ++ [(e.1, e.2)]) htail hdisj']
    simp

theorem listOrNew_nil {heap : Heap} {r : Nat}
    (h : Heap.readStrs heap r = some []) :
    listOrNew heap (some r) = (heap ++ [Cell.strs []], heap.length) := by
  rw [listOrNew, h]
  rfl

theorem listOrNew_cons {heap : Heap} {r : Nat} {x : String} {xs : List String}
    (h : Heap.readStrs heap r = some (x :: xs)) :
    listOrNew heap (some r) = (heap, r) := by
  rw [listOrNew, h]

/-- C8 (amended): copying a configuration copies the top-level option dict by
value (equal content, so renders the same argument vector on the resulting
heap), but the host list, trailing-argument list and forwarding-rule list
objects are shared with the original when non-empty, so in-place mutation
through the copy is visible to the original. -/
theorem C8_copy (cfg : SSHConfiguration) (heap : Heap)
    (hnodup : (cfg.options.map (fun e => e.1)).Nodup)
    (hostL argsL : List String)
    (hhost : Heap.readStrs heap cfg.host = some hostL)
    (hargs : Heap.readStrs heap cfg.args = some argsL) :
    ((SSHConfiguration.copy cfg heap).1.options = cfg.options) ∧
    (∀ b, SSHConfiguration.arguments (SSHConfiguration.copy cfg heap).1
        (SSHConfiguration.copy cfg heap).2 b =
      SSHConfiguration.arguments cfg (SSHConfiguration.copy cfg heap).2 b) ∧
    (hostL ≠ [] → (SSHConfiguration.copy cfg heap).1.host = cfg.host) ∧
    (argsL ≠ [] → (SSHConfiguration.copy cfg heap).1.args = cfg.args) := by
  have hopts0 : (if cfg.options = [] then ([] : OptionsDict)
      else SSHOptions.update [] cfg.options) = cfg.options := by
    by_cases hmt : cfg.options = []
    · rw [if_pos hmt, hmt]
    · rw [if_neg hmt, update_append cfg.options [] hnodup (by simp)]
      simp
  cases hostL with
  | cons hx hxs =>
    have e1 := listOrNew_cons hhost
    cases argsL with
    | cons ax axs =>
      have e2 := listOrNew_cons hargs
      have hcopy : SSHConfiguration.copy cfg heap =
          ({ options := cfg.options, host := cfg.host, args := cfg.args }, heap) := by
        simp only [SSHConfiguration.copy, SSHConfiguration.init]
        rw [e1]
        dsimp only
        rw [e2, hopts0]
      refine ⟨by rw [hcopy], ?_, fun _ => by rw [hcopy], fun _ => by rw [hcopy]⟩
      intro b
      rw [hcopy]
    | nil =>
      have e2 := listOrNew_nil hargs
      have hcopy : SSHConfiguration.copy cfg heap =
          ({ options := cfg.options, host := cfg.host, args := heap.length },
            heap ++ [Cell.strs []]) := by
        simp only [SSHConfiguration.copy, SSHConfiguration.init]
        rw [e1]
        dsimp only
        rw [e2, hopts0]
      refine ⟨by rw [hcopy], ?_, fun _ => by rw [hcopy], fun hne => absurd rfl hne⟩
      intro b
      rw [hcopy]
      dsimp only
      refine arguments_congr ?_ ?_ ?_ b
      · rfl
      · rfl
      · exact (readStrs_append_self heap []).trans (readStrs_append (Cell.strs []) hargs).symm
  | nil =>
    have e1 := listOrNew_nil hhost
    cases argsL with
    | cons ax axs =>
      have hargs1 : Heap.readStrs (heap ++ [Cell.strs []]) cfg.args = some (ax :: axs) :=
        readStrs_append _ hargs
      have e2 := listOrNew_cons hargs1
      have hcopy : SSHConfiguration.copy cfg heap =
          ({ options := cfg.options, host := heap.length, args := cfg.args },
            heap ++ [Cell.strs []]) := by
        simp only [SSHConfiguration.copy, SSHConfiguration.init]
        rw [e1]
        dsimp only
        rw [e2, hopts0]
      refine ⟨by rw [hcopy], ?_, fun hne => absurd rfl hne, fun _ => by rw [hcopy]⟩
      intro b
      rw [hcopy]
      dsimp only
      refine arguments_congr ?_ ?_ ?_ b
      · rfl
      · exact (readStrs_append_self heap []).trans (readStrs_append (Cell.strs []) hhost).symm
      · rfl
    | nil =>
      have hargs1 : Heap.readStrs (heap ++ [Cell.strs []]) cfg.args = some [] :=
        readStrs_append _ hargs
      have e2 := listOrNew_nil hargs1
      have hcopy : SSHConfiguration.copy cfg heap =
          ({ options := cfg.options, host := heap.length,
             args := (heap ++ [Cell.strs []]).length },
            (heap ++ [Cell.strs []]) ++ [Cell.strs []]) := by
        simp only [SSHConfiguration.copy, SSHConfiguration.init]
        rw [e1]
        dsimp only
        rw [e2, hopts0]
      refine ⟨by rw [hcopy], ?_, fun hne => absurd rfl hne, fun hne => absurd rfl hne⟩
      intro b
      rw [hcopy]
      dsimp only
      refine arguments_congr ?_ ?_ ?_ b
      · rfl
      · exact (readStrs_append _ (readStrs_append_self heap [])).trans
          (readStrs_append _ (readStrs_append _ hhost)).symm
      · exact (readStrs_append_self (heap ++ [Cell.strs []]) []).trans
          (readStrs_append _ (readStrs_append _ hargs)).symm

/-- Witness for C8 on a configuration with host list \["example.com"\] and a
forwarding-rule list on the heap. -/
theorem C8_copy_witness :
    ((SSHConfiguration.copy
        { options := [("forward_local", .vports 2)], host := 0, args := 1 }
        [Cell.strs ["example.com"], Cell.strs [],
         Cell.ports [{ sourceport := 10, destinationport := 20 }]]).1.options =
      [("forward_local", OptVal.vports 2)]) ∧
    (SSHConfiguration.arguments
        (SSHConfiguration.copy
          { options := [("forward_local", .vports 2)], host := 0, args := 1 }
          [Cell.strs ["example.com"], Cell.strs [],
           Cell.ports [{ sourceport := 10, destinationport := 20 }]]).1
        (SSHConfiguration.copy
          { options := [("forward_local", .vports 2)], host := 0, args := 1 }
          [Cell.strs ["example.com"], Cell.strs [],
           Cell.ports [{ sourceport := 10, destinationport := 20 }]]).2 true =
      SSHConfiguration.arguments
        { options := [("forward_local", .vports 2)], host := 0, args := 1 }
        (SSHConfiguration.copy
          { options := [("forward_local", .vports 2)], host := 0, args := 1 }
          [Cell.strs ["example.com"], Cell.strs [],
           Cell.ports [{ sourceport := 10, destinationport := 20 }]]).2 true) ∧
    ((SSHConfiguration.copy
        { options := [("forward_local", .vports 2)], host := 0, args := 1 }
        [Cell.strs ["example.com"], Cell.strs [],
         Cell.ports [{ sourceport := 10, destinationport := 20 }]]).1.host = 0) := by
  have h := C8_copy
    { options := [("forward_local", .vports 2)], host := 0, args := 1 }
    [Cell.strs ["example.com"], Cell.strs [],
     Cell.ports [{ sourceport := 10, destinationport := 20 }]]
    (by decide) ["example.com"] [] rfl rfl
  exact ⟨h.1, h.2.1 true, h.2.2.1 (by decide)⟩

/-- Counterexample to C8 as stated: after copying, writing through the copy's
host-list reference and through the forwarding-rule list reference held in
the copy's option map changes what the original configuration reads. -/
theorem C8_counterexample :
    ((SSHConfiguration.copy
        { options := [("forward_local", .vports 2)], host := 0, args := 1 }
        [Cell.strs ["example.com"], Cell.strs [],
         Cell.ports [{ sourceport := 10, destinationport := 20 }]]).1.host = 0) ∧
    (Heap.readStrs
        [Cell.strs ["example.com"], Cell.strs [],
         Cell.ports [{ sourceport := 10, destinationport := 20 }]] 0 =
      some ["example.com"]) ∧
    (Heap.readStrs
        (Heap.write
          (SSHConfiguration.copy
            { options := [("forward_local", .vports 2)], host := 0, args := 1 }
            [Cell.strs ["example.com"], Cell.strs [],
             Cell.ports [{ sourceport := 10, destinationport := 20 }]]).2
          0 (Cell.strs ["example.com", "evil"])) 0 =
      some ["example.com", "evil"]) ∧
    (dictFind
        (SSHConfiguration.copy
          { options := [("forward_local", .vports 2)], host := 0, args := 1 }
          [Cell.strs ["example.com"], Cell.strs [],
           Cell.ports [{ sourceport := 10, destinationport := 20 }]]).1.options
        "forward_local" = some (.vports 2)) ∧
    (Heap.readPorts
        (Heap.write
          (SSHConfiguration.copy
            { options := [("forward_local", .vports 2)], host := 0, args := 1 }
            [Cell.strs ["example.com"], Cell.strs [],
             Cell.ports [{ sourceport := 10, destinationport := 20 }]]).2
          2 (Cell.ports [])) 2 = some []) ∧
    (Heap.readPorts
        [Cell.strs ["example.com"], Cell.strs [],
         Cell.ports [{ sourceport := 10, destinationport := 20 }]] 2 =
      some [{ sourceport := 10, destinationport := 20 }]) ∧
    (some ["example.com", "evil"] ≠ some ["example.com"]) ∧
    ((some [] : Option (List ForwardingPort)) ≠
      some [{ sourceport := 10, destinationport := 20 }]) :=
  ⟨rfl, rfl, rfl, rfl, rfl, rfl, by decide, by decide⟩

end SuperTunnel
